import Mathlib

/-!
Verification of the A* pathfinding core of the Pathfinding-Visualizer
repository (src/main.py), as a shallow embedding in Lean.

Cells are identified by their (row, col) position.  The mutable `color`
attribute of a `Node` becomes a `Pos → Color` map carried in the search
state.  The Python dictionaries (`g_score`, `f_score`) become total
functions `Pos → ℕ∞` (float "inf" becomes `⊤ : ℕ∞`); `came_from` becomes
an association list with dictionary update semantics; the
`PriorityQueue` becomes a list of `(f, count, pos)` entries from which
the lexicographically least `(f, count)` entry is removed on `get`.
The `while` loop of `algorithm` becomes a total step function on a
`LoopState`, iterated with fuel; `reconstruct_path` becomes a
fuel-bounded recursion (the fuel `|came_from| + 1` is exhausted only in
states where the Python loop would cycle forever).

The state additionally carries instrumentation traces (`pushTrace`,
`popTrace`, `pathTrace`) recording every queue insertion, every queue
removal and every `make_path` call; these are write-only and do not
influence control flow.
-/

abbrev Pos : Type := Nat × Nat

/-- The colors of src/main.py, each doubling as a traversal-state tag:
`default` (unvisited), `blue` (Start), `black` (Wall), `turquoise`
(Closed/Visited), `cyan` (Open/Frontier), `yellow` (End), `white` (Path). -/
inductive Color where
  | default | blue | black | turquoise | cyan | yellow | white
deriving DecidableEq, Repr

/-- `Node.is_wall`: the node's color is black. -/
def isWall (tags : Pos → Color) (p : Pos) : Bool :=
  tags p = Color.black

/-- `Node.update_neighbors`: the four orthogonal positions, in the
source order down, up, right, left, keeping those in bounds and not
currently tagged Wall (`self.row < self.total_rows - 1`, etc.; the
subtraction is ordinary truncated `Nat` subtraction, which agrees with
the Python `int` comparison for all `totalRows`). -/
def updateNeighbors (totalRows : Nat) (tags : Pos → Color) (p : Pos) : List Pos :=
  (if p.1 < totalRows - 1 ∧ ¬ isWall tags (p.1 + 1, p.2) then [(p.1 + 1, p.2)] else []) ++
  (if 0 < p.1 ∧ ¬ isWall tags (p.1 - 1, p.2) then [(p.1 - 1, p.2)] else []) ++
  (if p.2 < totalRows - 1 ∧ ¬ isWall tags (p.1, p.2 + 1) then [(p.1, p.2 + 1)] else []) ++
  (if 0 < p.2 ∧ ¬ isWall tags (p.1, p.2 - 1) then [(p.1, p.2 - 1)] else [])

/-- `heuristic(p1, p2) = abs(x1 - x2) + abs(y1 - y2)`: the Manhattan
distance between two positions. -/
def heuristic (p1 p2 : Pos) : Nat :=
  ((p1.1 : Int) - (p2.1 : Int)).natAbs + ((p1.2 : Int) - (p2.2 : Int)).natAbs

/-- One entry of the `PriorityQueue`: `(f_score, insertion count, cell)`. -/
abbrev Entry : Type := ℕ∞ × Nat × Pos

/-- Strict lexicographic comparison of queue entries on the
`(f_score, count)` components — the comparison Python performs on the
tuples `(f, count, node)` whenever the first two components decide. -/
def entryLt (a b : Entry) : Prop :=
  a.1 < b.1 ∨ (a.1 = b.1 ∧ a.2.1 < b.2.1)

instance : DecidablePred fun ab : Entry × Entry => entryLt ab.1 ab.2 :=
  fun _ => by unfold entryLt; infer_instance

instance (a b : Entry) : Decidable (entryLt a b) := by
  unfold entryLt; infer_instance

/-- The least entry of the queue under `entryLt` (the entry
`PriorityQueue.get` returns), or `none` for the empty queue. -/
def minE (l : List Entry) : Option Entry :=
  l.foldl (fun acc e =>
    match acc with
    | none => some e
    | some m => if entryLt e m then some e else some m) none

/-- `PriorityQueue.get`: remove and return the least entry. -/
def popMin (l : List Entry) : Option (Entry × List Entry) :=
  match minE l with
  | none => none
  | some m => some (m, l.erase m)

/-- Dictionary update `came_from[k] = v` on an association list:
replaces the binding of `k` if present, otherwise appends it. -/
def cfInsert (l : List (Pos × Pos)) (k v : Pos) : List (Pos × Pos) :=
  if (l.lookup k).isSome then
    l.map (fun kv => if kv.1 = k then (k, v) else kv)
  else
    l ++ [(k, v)]

/-- The per-invocation state of `algorithm`: the insertion counter, the
priority queue, the predecessor dictionary, the two score dictionaries,
the queued-membership set `open_set_hash`, the node colors, and three
instrumentation traces (all pushes, all pops, all `make_path` calls). -/
structure AState where
  count : Nat
  openSet : List Entry
  cameFrom : List (Pos × Pos)
  g : Pos → ℕ∞
  f : Pos → ℕ∞
  openSetHash : Pos → Bool
  tags : Pos → Color
  pushTrace : List Entry
  popTrace : List Pos
  pathTrace : List Pos

/-- The body of `for neighbor in current.neighbors` in `algorithm`:
relax one neighbor.  `tmp = g_score[current] + 1`; on strict
improvement record the predecessor, update both scores, and if the
neighbor is not queued, push it with a fresh count and tag it Open. -/
def relaxOne (endP current : Pos) (s : AState) (nbr : Pos) : AState :=
  let tmp : ℕ∞ := s.g current + 1
  if tmp < s.g nbr then
    let s1 : AState :=
      { s with
        cameFrom := cfInsert s.cameFrom nbr current
        g := fun p => if p = nbr then tmp else s.g p
        f := fun p => if p = nbr then tmp + (heuristic nbr endP : ℕ∞) else s.f p }
    if s1.openSetHash nbr then s1
    else
      let c' := s1.count + 1
      let ent : Entry := (s1.f nbr, c', nbr)
      { s1 with
        count := c'
        openSet := s1.openSet ++ [ent]
        openSetHash := fun p => if p = nbr then true else s1.openSetHash p
        tags := fun p => if p = nbr then Color.cyan else s1.tags p
        pushTrace := s1.pushTrace ++ [ent] }
  else s

/-- `reconstruct_path`: while the current cell has a predecessor, move
to the predecessor and tag it Path (the move happens before the
tagging, exactly as in the source).  The accumulator records the cells
tagged, in order.  `none` is returned when the fuel runs out with the
loop still running. -/
def reconstructPath (fuel : Nat) (cf : List (Pos × Pos)) (cur : Pos)
    (tags : Pos → Color) (acc : List Pos) :
    Option ((Pos → Color) × List Pos) :=
  match fuel with
  | 0 =>
    match cf.lookup cur with
    | none => some (tags, acc)
    | some _ => none
  | fuel + 1 =>
    match cf.lookup cur with
    | none => some (tags, acc)
    | some nxt =>
      reconstructPath fuel cf nxt
        (fun p => if p = nxt then Color.white else tags p) (acc ++ [nxt])

/-- The observable status of one `algorithm` invocation: still inside
the `while` loop, returned (with the boolean result of `algorithm`), or
hung (the embedded counterpart of `reconstruct_path` cycling forever,
which no reachable state produces). -/
inductive LoopState where
  | running (s : AState)
  | done (found : Bool) (s : AState)
  | hung (s : AState)

/-- The state carried by a `LoopState`. -/
def LoopState.state : LoopState → AState
  | .running s => s
  | .done _ s => s
  | .hung s => s

/-- Whether a `LoopState` is still running. -/
def LoopState.isRunning : LoopState → Bool
  | .running _ => true
  | _ => false

/-- One iteration of the `while not open_set.empty()` loop of
`algorithm`: an empty queue returns `False`; otherwise the least entry
is removed (and its cell removed from `open_set_hash`); if that cell is
`end`, the path is reconstructed, `end` is re-tagged End and `True` is
returned; otherwise every neighbor is relaxed, and the popped cell is
tagged Closed unless it is `start`.  (The per-iteration pygame event
drain and the `draw()` callback touch no search state and are omitted.) -/
def popState (current : Pos) (rest : List Entry) (s : AState) : AState :=
  { s with
    openSet := rest
    openSetHash := fun p => if p = current then false else s.openSetHash p
    popTrace := s.popTrace ++ [current] }

/-- The success exit of `algorithm`: reconstruct the path from the
predecessor dictionary, then `end.make_end()` and `return True`. -/
def finishState (endP : Pos) (s0 : AState) : LoopState :=
  match reconstructPath (s0.cameFrom.length + 1) s0.cameFrom endP s0.tags [] with
  | some (tags', path) =>
    .done true
      { s0 with
        tags := fun p => if p = endP then Color.yellow else tags' p
        pathTrace := s0.pathTrace ++ path }
  | none => .hung s0

/-- The non-success remainder of one loop iteration: relax every
neighbor of the popped cell, then tag it Closed unless it is `start`. -/
def expandState (nbrs : Pos → List Pos) (startP endP current : Pos) (s0 : AState) : AState :=
  let s1 : AState := (nbrs current).foldl (relaxOne endP current) s0
  if current ≠ startP then
    { s1 with tags := fun p => if p = current then Color.turquoise else s1.tags p }
  else s1

/-- One full iteration starting from a running state `s`. -/
def stepRun (nbrs : Pos → List Pos) (startP endP : Pos) (s : AState) : LoopState :=
  match popMin s.openSet with
  | none => .done false s
  | some (ent, rest) =>
    let current : Pos := ent.2.2
    let s0 : AState := popState current rest s
    if current = endP then finishState endP s0
    else .running (expandState nbrs startP endP current s0)

def stepL (nbrs : Pos → List Pos) (startP endP : Pos) : LoopState → LoopState
  | .done b s => .done b s
  | .hung s => .hung s
  | .running s => stepRun nbrs startP endP s

/-- The state of `algorithm` at the top of its `while` loop: counter 0,
the queue holding the single entry `(0, 0, start)` (the literal
priority `0` the source pushes), empty `came_from`, `g_score[start] = 0`
and `f_score[start] = heuristic(start, end)` with every other score
`inf`, and `open_set_hash = {start}`. -/
def initState (tags0 : Pos → Color) (startP endP : Pos) : AState :=
  { count := 0
    openSet := [((0 : ℕ∞), 0, startP)]
    cameFrom := []
    g := fun p => if p = startP then (0 : ℕ∞) else ⊤
    f := fun p => if p = startP then (heuristic startP endP : ℕ∞) else ⊤
    openSetHash := fun p => p = startP
    tags := tags0
    pushTrace := [((0 : ℕ∞), 0, startP)]
    popTrace := []
    pathTrace := [] }

/-- `k` iterations of the `algorithm` loop over an arbitrary neighbor
relation, starting from the initial state. -/
def runFor (nbrs : Pos → List Pos) (tags0 : Pos → Color) (startP endP : Pos)
    (k : Nat) : LoopState :=
  (stepL nbrs startP endP)^[k] (.running (initState tags0 startP endP))

/-- The whole search as invoked from `main`: every cell's neighbors are
first recomputed from the current colors (`update_neighbors`), then
`algorithm` runs for `k` iterations on an `n × n` grid. -/
def runSearch (n : Nat) (tags0 : Pos → Color) (startP endP : Pos) (k : Nat) :
    LoopState :=
  runFor (updateNeighbors n tags0) tags0 startP endP k

/-- `make_grid`: the `n` rows of the grid, row `i` holding the cells
`(i, 0) … (i, n-1)` in order. -/
def makeGrid (n : Nat) : List (List Pos) :=
  (List.range n).map (fun i => (List.range n).map (fun j => (i, j)))

/-- Python list subscription `l[i]` for a possibly negative index:
`0 ≤ i < len` yields the element, `-len ≤ i < 0` yields the element at
`len + i` (silent wrap-around), anything else raises `IndexError`
(modelled as `none`). -/
def pyIndex (l : List Pos) (i : Int) : Option Pos :=
  if 0 ≤ i then l.get? i.toNat
  else if 0 ≤ (l.length : Int) + i then l.get? ((l.length : Int) + i).toNat
  else none

/-- Outer Python list subscription for the grid rows. -/
def pyIndexRow (l : List (List Pos)) (i : Int) : Option (List Pos) :=
  if 0 ≤ i then l.get? i.toNat
  else if 0 ≤ (l.length : Int) + i then l.get? ((l.length : Int) + i).toNat
  else none

/-- The cell accessor `grid[row][col]` used by `main` on the structure
built by `make_grid`, with Python subscription semantics in both
dimensions. -/
def cellAt (grid : List (List Pos)) (row col : Int) : Option Pos :=
  (pyIndexRow grid row).bind (fun r => pyIndex r col)

/-! ### Basic lemmas about the loop and the queue -/

theorem stepL_done (nbrs : Pos → List Pos) (startP endP : Pos) (b : Bool) (s : AState) :
    stepL nbrs startP endP (.done b s) = .done b s := rfl

theorem runFor_succ (nbrs : Pos → List Pos) (tags0 : Pos → Color) (startP endP : Pos)
    (k : Nat) :
    runFor nbrs tags0 startP endP (k + 1) =
      stepL nbrs startP endP (runFor nbrs tags0 startP endP k) := by
  unfold runFor
  rw [Function.iterate_succ_apply']

theorem runFor_done_absorb (nbrs : Pos → List Pos) (tags0 : Pos → Color)
    (startP endP : Pos) (k j : Nat) (b : Bool) (st : AState)
    (h : runFor nbrs tags0 startP endP k = .done b st) (hj : k ≤ j) :
    runFor nbrs tags0 startP endP j = .done b st := by
  induction j with
  | zero => rw [← Nat.le_zero.mp hj]; exact h
  | succ j ih =>
    rcases Nat.lt_or_ge k (j + 1) with hlt | hge
    · have hj' : k ≤ j := Nat.lt_succ_iff.mp hlt
      rw [runFor_succ, ih hj', stepL_done]
    · have : k = j + 1 := Nat.le_antisymm hj hge
      rw [← this]; exact h

theorem entryLt_irrefl (a : Entry) : ¬ entryLt a a := by
  unfold entryLt
  simp [lt_irrefl]

theorem entryLt_trans {a b c : Entry} (h1 : entryLt a b) (h2 : entryLt b c) :
    entryLt a c := by
  unfold entryLt at *
  rcases h1 with h1 | ⟨h1e, h1c⟩ <;> rcases h2 with h2 | ⟨h2e, h2c⟩
  · exact Or.inl (lt_trans h1 h2)
  · exact Or.inl (h2e ▸ h1)
  · exact Or.inl (h1e ▸ h2)
  · exact Or.inr ⟨h1e.trans h2e, lt_trans h1c h2c⟩

theorem not_entryLt_trans {a b c : Entry} (h1 : ¬ entryLt b a) (h2 : ¬ entryLt c b) :
    ¬ entryLt c a := by
  unfold entryLt at *
  push_neg at h1 h2 ⊢
  refine ⟨le_trans h1.1 h2.1, fun hca => ?_⟩
  have hba : b.1 = a.1 := le_antisymm (hca ▸ h2.1) h1.1
  have hcb : c.1 = b.1 := by rw [hba, hca]
  exact le_trans (h1.2 hba) (h2.2 hcb)

theorem entryLt_of_not_of_ne {a b : Entry} (h : ¬ entryLt a b)
    (hne : ¬ (a.1 = b.1 ∧ a.2.1 = b.2.1)) : entryLt b a := by
  unfold entryLt at *
  push_neg at h
  rcases lt_or_eq_of_le h.1 with hlt | heq
  · exact Or.inl hlt
  · refine Or.inr ⟨heq, ?_⟩
    have := h.2 heq.symm
    rcases lt_or_eq_of_le this with hlt | heq2
    · exact hlt
    · exact absurd ⟨heq.symm, heq2.symm⟩ hne

theorem minE_go_spec (l : List Entry) :
    ∀ (a m : Entry),
      l.foldl (fun acc e =>
        match acc with
        | none => some e
        | some m => if entryLt e m then some e else some m) (some a) = some m →
      (m = a ∨ m ∈ l) ∧ ¬ entryLt a m ∧ ∀ x ∈ l, ¬ entryLt x m := by
  induction l with
  | nil =>
    intro a m h
    simp only [List.foldl_nil, Option.some.injEq] at h
    exact ⟨Or.inl h.symm, h ▸ entryLt_irrefl a, by simp⟩
  | cons x xs ih =>
    intro a m h
    simp only [List.foldl_cons] at h
    by_cases hx : entryLt x a
    · rw [if_pos hx] at h
      obtain ⟨hmem, hxa, hall⟩ := ih x m h
      refine ⟨?_, ?_, ?_⟩
      · rcases hmem with rfl | hm
        · exact Or.inr (List.mem_cons_self _ _)
        · exact Or.inr (List.mem_cons_of_mem _ hm)
      · intro ham
        exact hxa (entryLt_trans hx ham)
      · intro y hy
        rcases List.mem_cons.mp hy with rfl | hy'
        · exact hxa
        · exact hall y hy'
    · rw [if_neg hx] at h
      obtain ⟨hmem, ham, hall⟩ := ih a m h
      refine ⟨?_, ham, ?_⟩
      · rcases hmem with rfl | hm
        · exact Or.inl rfl
        · exact Or.inr (List.mem_cons_of_mem _ hm)
      · intro y hy
        rcases List.mem_cons.mp hy with rfl | hy'
        · exact not_entryLt_trans ham hx
        · exact hall y hy'

theorem minE_go_isSome (l : List Entry) :
    ∀ (a : Entry), ∃ m,
      l.foldl (fun acc e =>
        match acc with
        | none => some e
        | some m => if entryLt e m then some e else some m) (some a) = some m := by
  induction l with
  | nil => intro a; exact ⟨a, rfl⟩
  | cons x xs ih =>
    intro a
    simp only [List.foldl_cons]
    by_cases hx : entryLt x a
    · rw [if_pos hx]; exact ih x
    · rw [if_neg hx]; exact ih a

theorem minE_spec {l : List Entry} {m : Entry} (h : minE l = some m) :
    m ∈ l ∧ ∀ x ∈ l, ¬ entryLt x m := by
  cases l with
  | nil => simp [minE] at h
  | cons x xs =>
    unfold minE at h
    simp only [List.foldl_cons] at h
    obtain ⟨hmem, hxm, hall⟩ := minE_go_spec xs x m h
    refine ⟨?_, ?_⟩
    · rcases hmem with rfl | hm
      · exact List.mem_cons_self _ _
      · exact List.mem_cons_of_mem _ hm
    · intro y hy
      rcases List.mem_cons.mp hy with rfl | hy'
      · exact hxm
      · exact hall y hy'

theorem minE_nil : minE [] = none := rfl

theorem minE_isSome {l : List Entry} (h : l ≠ []) : ∃ m, minE l = some m := by
  cases l with
  | nil => exact absurd rfl h
  | cons x xs =>
    unfold minE
    simp only [List.foldl_cons]
    exact minE_go_isSome xs x

theorem popMin_eq_none_iff {l : List Entry} : popMin l = none ↔ l = [] := by
  constructor
  · intro h
    by_contra hne
    obtain ⟨m, hm⟩ := minE_isSome hne
    unfold popMin at h
    rw [hm] at h
    exact Option.noConfusion h
  · rintro rfl; rfl

theorem popMin_spec {l : List Entry} {m : Entry} {rest : List Entry}
    (h : popMin l = some (m, rest)) :
    m ∈ l ∧ rest = l.erase m ∧ ∀ x ∈ l, ¬ entryLt x m := by
  unfold popMin at h
  cases hm : minE l with
  | none => rw [hm] at h; exact Option.noConfusion h
  | some m' =>
    rw [hm] at h
    obtain ⟨rfl, rfl⟩ : m' = m ∧ l.erase m' = rest := by
      simpa using h
    obtain ⟨hmem, hall⟩ := minE_spec hm
    exact ⟨hmem, rfl, hall⟩

theorem popMin_singleton (e : Entry) : popMin [e] = some (e, []) := by
  unfold popMin minE
  simp

/-! ### C3: the initial frontier entry -/

/-- Claim C3 (as stated) is false: the entry pushed for the start cell
carries the literal priority `0`, not `f_score(start)`.  Concretely,
with start `(0,0)` and end `(0,2)` the heuristic is `2`, but the initial
frontier is `[(0, 0, start)]`, not `[(2, 0, start)]`. -/
theorem C3_counterexample :
    (initState (fun _ => Color.default) (0, 0) (0, 2)).openSet ≠
      [((heuristic (0, 0) (0, 2) : ℕ∞), 0, ((0, 0) : Pos))] ∧
    heuristic (0, 0) (0, 2) = 2 := by
  constructor
  · intro h
    have h' := congrArg (fun l : List Entry => l.headI.1) h
    revert h'
    decide
  · decide

/-- Claim C3, amended: at the start of every search invocation the
single frontier entry is `(0, 0, start)` — priority `0` regardless of
the heuristic — while the `f_score` map does record
`f_score(start) = heuristic(start, end)`. -/
theorem C3_amended (tags0 : Pos → Color) (s e : Pos) :
    (initState tags0 s e).openSet = [((0 : ℕ∞), 0, s)] ∧
    (initState tags0 s e).f s = (heuristic s e : ℕ∞) := by
  refine ⟨rfl, ?_⟩
  simp [initState]

/-! ### C4: start == end -/

/-- Claim C4: for every grid (any neighbor relation, any colors) and
any cell `c` used as both start and end, the very first iteration pops
`c`, immediately succeeds, reconstructs an empty path (no cell is ever
tagged Path), re-tags `c` as End, and leaves every other cell's tag
untouched. -/
theorem C4_start_eq_end (nbrs : Pos → List Pos) (tags0 : Pos → Color) (c : Pos)
    (k : Nat) (hk : 1 ≤ k) :
    ∃ st : AState,
      runFor nbrs tags0 c c k = .done true st ∧
      st.popTrace = [c] ∧
      st.pathTrace = [] ∧
      st.tags c = Color.yellow ∧
      (∀ p : Pos, p ≠ c → st.tags p = tags0 p) := by
  have h1 : runFor nbrs tags0 c c 1 =
      stepRun nbrs c c (initState tags0 c c) := by
    unfold runFor
    simp [stepL]
  rw [show (stepRun nbrs c c (initState tags0 c c)) =
        finishState c (popState c [] (initState tags0 c c)) by
      unfold stepRun
      rw [show (initState tags0 c c).openSet = [((0 : ℕ∞), 0, c)] from rfl,
        popMin_singleton]
      simp] at h1
  rw [show finishState c (popState c [] (initState tags0 c c)) =
        .done true
          { popState c [] (initState tags0 c c) with
            tags := fun p => if p = c then Color.yellow
              else (popState c [] (initState tags0 c c)).tags p
            pathTrace := [] } by
      unfold finishState
      rw [show (popState c [] (initState tags0 c c)).cameFrom = [] from rfl]
      simp [reconstructPath]
      exact ⟨rfl, rfl⟩] at h1
  refine ⟨_, runFor_done_absorb _ _ _ _ 1 k true _ h1 hk, ?_, ?_, ?_, ?_⟩
  · rfl
  · rfl
  · simp
  · intro p hp
    simp [popState, initState, hp]

/-! ### C8: the cell accessor on out-of-range indices -/

theorem makeGrid_get? (n k : Nat) :
    (makeGrid n).get? k =
      if k < n then some ((List.range n).map (fun j => ((k, j) : Pos))) else none := by
  unfold makeGrid
  by_cases h : k < n
  · rw [if_pos h]
    rw [List.get?_map, List.get?_range h]
    rfl
  · rw [if_neg h]
    rw [List.get?_eq_none]
    simpa using Nat.le_of_not_lt h

theorem row_get? (n i k : Nat) :
    ((List.range n).map (fun j => ((i, j) : Pos))).get? k =
      if k < n then some ((i, k) : Pos) else none := by
  by_cases h : k < n
  · rw [if_pos h]
    rw [List.get?_map, List.get?_range h]
    rfl
  · rw [if_neg h]
    rw [List.get?_eq_none]
    simpa using Nat.le_of_not_lt h

/-- Claim C8 (as stated) is false: Python list subscription accepts
negative indices down to `-N`, silently wrapping around, so an
out-of-bounds `(row, col)` need not fail loudly.  On a 3×3 grid the
access `grid[-1][-1]` — both indices outside `[0, 3)` — silently yields
the cell `(2, 2)`. -/
theorem C8_counterexample :
    ¬ ((-1 : Int) < 0 → cellAt (makeGrid 3) (-1) (-1) = none) ∧
    cellAt (makeGrid 3) (-1) (-1) = some (2, 2) := by
  constructor
  · intro h
    have := h (by decide)
    rw [show cellAt (makeGrid 3) (-1) (-1) = some (2, 2) by decide] at this
    exact Option.noConfusion this
  · decide

/-- Claim C8, amended: the accessor `grid[row][col]` fails loudly
exactly when `row` or `col` lies outside `[-N, N)`; indices in
`[-N, 0)` are accepted silently and wrap around, yielding the cell
`((row + N) mod N, (col + N) mod N)`.  So only indices `≥ N` or
`< -N` fail, and a negative out-of-bounds index silently yields
another cell of the grid. -/
theorem C8_amended (n : Nat) (r c : Int) :
    cellAt (makeGrid n) r c =
      (if 0 ≤ r + n ∧ r < n ∧ 0 ≤ c + n ∧ c < n
       then some ((((r + n) % n).toNat, ((c + n) % n).toNat) : Pos)
       else none) := by
  have hlen : (makeGrid n).length = n := by simp [makeGrid]
  have hrowlen : ∀ i : Nat, ((List.range n).map (fun j => ((i, j) : Pos))).length = n := by
    intro i; simp
  unfold cellAt pyIndexRow pyIndex
  rw [hlen]
  by_cases hr0 : 0 ≤ r
  · rw [if_pos hr0, makeGrid_get?]
    by_cases hrn : r < n
    · have hrt : r.toNat < n := by omega
      rw [if_pos hrt]
      rw [Option.some_bind]
      rw [hrowlen]
      have hrw : ((r + n) % n).toNat = r.toNat := by
        have h1 : (r + n) % n = r % n := by simp
        have h2 : r % n = r := Int.emod_eq_of_lt hr0 hrn
        rw [h1, h2]
      by_cases hc0 : 0 ≤ c
      · rw [if_pos hc0, row_get?]
        by_cases hcn : c < n
        · have hct : c.toNat < n := by omega
          rw [if_pos hct, if_pos ⟨by omega, hrn, by omega, hcn⟩]
          have hcw : ((c + n) % n).toNat = c.toNat := by
            have h1 : (c + n) % n = c % n := by simp
            rw [h1, Int.emod_eq_of_lt hc0 hcn]
          rw [hrw, hcw]
        · have hct : ¬ c.toNat < n := by omega
          rw [if_neg hct, if_neg (by omega)]
      · rw [if_neg hc0]
        by_cases hcn : 0 ≤ (n : Int) + c
        · rw [if_pos hcn, row_get?]
          have hct : ((n : Int) + c).toNat < n := by omega
          rw [if_pos hct, if_pos ⟨by omega, hrn, by omega, by omega⟩]
          have hcw : ((c + n) % n).toNat = ((n : Int) + c).toNat := by
            have h0 : 0 < (n : Int) := by omega
            have h2 : (c + n) % n = c + n := Int.emod_eq_of_lt (by omega) (by omega)
            rw [h2]; omega
          rw [hrw, hcw]
        · rw [if_neg hcn, if_neg (by omega)]
    · have hrt : ¬ r.toNat < n := by omega
      rw [if_neg hrt, if_neg (by omega)]
      exact Option.none_bind _
  · rw [if_neg hr0]
    by_cases hrn : 0 ≤ (n : Int) + r
    · rw [if_pos hrn, makeGrid_get?]
      have hrt : ((n : Int) + r).toNat < n := by omega
      rw [if_pos hrt]
      rw [Option.some_bind]
      rw [hrowlen]
      have hrw : ((r + n) % n).toNat = ((n : Int) + r).toNat := by
        have h2 : (r + n) % n = r + n := Int.emod_eq_of_lt (by omega) (by omega)
        rw [h2]; omega
      by_cases hc0 : 0 ≤ c
      · rw [if_pos hc0, row_get?]
        by_cases hcn : c < n
        · have hct : c.toNat < n := by omega
          rw [if_pos hct, if_pos ⟨by omega, by omega, by omega, hcn⟩]
          have hcw : ((c + n) % n).toNat = c.toNat := by
            have h1 : (c + n) % n = c % n := by simp
            rw [h1, Int.emod_eq_of_lt hc0 hcn]
          rw [hrw, hcw]
        · have hct : ¬ c.toNat < n := by omega
          rw [if_neg hct, if_neg (by omega)]
      · rw [if_neg hc0]
        by_cases hcn : 0 ≤ (n : Int) + c
        · rw [if_pos hcn, row_get?]
          have hct : ((n : Int) + c).toNat < n := by omega
          rw [if_pos hct, if_pos ⟨by omega, by omega, by omega, by omega⟩]
          have hcw : ((c + n) % n).toNat = ((n : Int) + c).toNat := by
            have h2 : (c + n) % n = c + n := Int.emod_eq_of_lt (by omega) (by omega)
            rw [h2]; omega
          rw [hrw, hcw]
        · rw [if_neg hcn, if_neg (by omega)]
    · rw [if_neg hrn, if_neg (by omega)]
      exact Option.none_bind _

/-! ### C7: g-scores never increase -/

theorem relaxOne_g_le (endP current : Pos) (s : AState) (nbr p : Pos) :
    (relaxOne endP current s nbr).g p ≤ s.g p := by
  unfold relaxOne
  by_cases h : s.g current + 1 < s.g nbr
  · rw [if_pos h]
    have hg : ∀ t : AState,
        t.g = (fun q => if q = nbr then s.g current + 1 else s.g q) →
        t.g p ≤ s.g p := by
      intro t ht
      rw [ht]
      by_cases hp : p = nbr
      · subst hp; simp only [if_pos rfl]; exact le_of_lt h
      · simp only [if_neg hp]; exact le_refl _
    dsimp only
    split
    · exact hg _ rfl
    · exact hg _ rfl
  · rw [if_neg h]

theorem foldl_relax_g_le (endP current : Pos) (l : List Pos) :
    ∀ (s : AState) (p : Pos),
      (l.foldl (relaxOne endP current) s).g p ≤ s.g p := by
  induction l with
  | nil => intro s p; exact le_refl _
  | cons x xs ih =>
    intro s p
    simp only [List.foldl_cons]
    exact le_trans (ih (relaxOne endP current s x) p) (relaxOne_g_le endP current s x p)

theorem stepL_g_le (nbrs : Pos → List Pos) (startP endP : Pos) (ls : LoopState)
    (p : Pos) :
    (stepL nbrs startP endP ls).state.g p ≤ ls.state.g p := by
  cases ls with
  | done b s => exact le_refl _
  | hung s => exact le_refl _
  | running s =>
    show (stepRun nbrs startP endP s).state.g p ≤ s.g p
    unfold stepRun
    cases hpm : popMin s.openSet with
    | none => exact le_refl _
    | some pr =>
      obtain ⟨ent, rest⟩ := pr
      simp only
      by_cases hend : ent.2.2 = endP
      · rw [if_pos hend]
        unfold finishState
        cases hrc : reconstructPath ((popState ent.2.2 rest s).cameFrom.length + 1)
            (popState ent.2.2 rest s).cameFrom endP (popState ent.2.2 rest s).tags [] with
        | none => exact le_refl _
        | some pr2 => obtain ⟨tags', path⟩ := pr2; exact le_refl _
      · rw [if_neg hend]
        show (expandState nbrs startP endP ent.2.2 (popState ent.2.2 rest s)).g p ≤ s.g p
        unfold expandState
        by_cases hst : ent.2.2 ≠ startP
        · rw [if_pos hst]
          exact foldl_relax_g_le endP ent.2.2 (nbrs ent.2.2) (popState ent.2.2 rest s) p
        · rw [if_neg hst]
          exact foldl_relax_g_le endP ent.2.2 (nbrs ent.2.2) (popState ent.2.2 rest s) p

/-- Claim C7: throughout every run (over any neighbor relation, any
colors, any start and end), the recorded g-score of every cell never
increases from one loop iteration to the next; hence it is monotonically
nonincreasing over the whole run. -/
theorem C7_g_monotone (nbrs : Pos → List Pos) (tags0 : Pos → Color)
    (startP endP : Pos) (k j : Nat) (p : Pos) (hkj : k ≤ j) :
    (runFor nbrs tags0 startP endP j).state.g p ≤
      (runFor nbrs tags0 startP endP k).state.g p := by
  induction j with
  | zero => rw [← Nat.le_zero.mp hkj]
  | succ j ih =>
    rcases Nat.lt_or_ge k (j + 1) with hlt | hge
    · have hj' : k ≤ j := Nat.lt_succ_iff.mp hlt
      calc (runFor nbrs tags0 startP endP (j + 1)).state.g p
          ≤ (runFor nbrs tags0 startP endP j).state.g p := by
            rw [runFor_succ]
            exact stepL_g_le nbrs startP endP _ p
        _ ≤ _ := ih hj'
    · rw [Nat.le_antisymm hkj hge]

/-! ### Invariants over reachable loop states -/

theorem runFor_invariantL (nbrs : Pos → List Pos) (tags0 : Pos → Color)
    (startP endP : Pos) (P : LoopState → Prop)
    (hinit : P (.running (initState tags0 startP endP)))
    (hstep : ∀ ls, P ls → P (stepL nbrs startP endP ls)) :
    ∀ k, P (runFor nbrs tags0 startP endP k) := by
  intro k
  induction k with
  | zero => exact hinit
  | succ k ih =>
    rw [runFor_succ]
    exact hstep _ ih

/-- The queue bookkeeping invariant: the counts of the entries pushed so
far strictly increase in push order, none exceeds the current counter,
and the queue is a sublist of the push history. -/
def QInv (s : AState) : Prop :=
  List.Pairwise (fun a b : Entry => a.2.1 < b.2.1) s.pushTrace ∧
  (∀ a ∈ s.pushTrace, a.2.1 ≤ s.count) ∧
  s.openSet.Sublist s.pushTrace

theorem QInv_init (tags0 : Pos → Color) (startP endP : Pos) :
    QInv (initState tags0 startP endP) := by
  refine ⟨?_, ?_, ?_⟩
  · simp [initState]
  · intro a ha
    simp [initState] at ha
    simp [ha, initState]
  · exact List.Sublist.refl _

theorem QInv_relaxOne (endP current : Pos) (s : AState) (nbr : Pos)
    (h : QInv s) : QInv (relaxOne endP current s nbr) := by
  obtain ⟨hpw, hbd, hsub⟩ := h
  unfold relaxOne
  by_cases himp : s.g current + 1 < s.g nbr
  · rw [if_pos himp]
    dsimp only
    split
    · exact ⟨hpw, hbd, hsub⟩
    · refine ⟨?_, ?_, ?_⟩
      · rw [List.pairwise_append]
        refine ⟨hpw, List.pairwise_singleton _ _, ?_⟩
        intro a ha b hb
        rw [List.mem_singleton] at hb
        subst hb
        exact Nat.lt_succ_of_le (hbd a ha)
      · intro a ha
        rw [List.mem_append, List.mem_singleton] at ha
        rcases ha with ha | rfl
        · exact Nat.le_succ_of_le (hbd a ha)
        · exact Nat.le_refl _
      · exact List.Sublist.append hsub (List.Sublist.refl _)
  · rw [if_neg himp]
    exact ⟨hpw, hbd, hsub⟩

theorem QInv_foldl (endP current : Pos) (l : List Pos) :
    ∀ s : AState, QInv s → QInv (l.foldl (relaxOne endP current) s) := by
  induction l with
  | nil => intro s h; exact h
  | cons x xs ih =>
    intro s h
    exact ih _ (QInv_relaxOne endP current s x h)

theorem QInv_step (nbrs : Pos → List Pos) (startP endP : Pos) (ls : LoopState)
    (h : QInv ls.state) : QInv (stepL nbrs startP endP ls).state := by
  cases ls with
  | done b s => exact h
  | hung s => exact h
  | running s =>
    show QInv (stepRun nbrs startP endP s).state
    unfold stepRun
    cases hpm : popMin s.openSet with
    | none => exact h
    | some pr =>
      obtain ⟨ent, rest⟩ := pr
      obtain ⟨hmem, hrest, hmin⟩ := popMin_spec hpm
      have h0 : QInv (popState ent.2.2 rest s) := by
        obtain ⟨hpw, hbd, hsub⟩ := h
        refine ⟨hpw, hbd, ?_⟩
        show rest.Sublist s.pushTrace
        rw [hrest]
        exact (List.erase_sublist _ _).trans hsub
      simp only
      by_cases hend : ent.2.2 = endP
      · rw [if_pos hend]
        unfold finishState
        cases hrc : reconstructPath ((popState ent.2.2 rest s).cameFrom.length + 1)
            (popState ent.2.2 rest s).cameFrom endP (popState ent.2.2 rest s).tags [] with
        | none => exact h0
        | some pr2 => obtain ⟨tags', path⟩ := pr2; exact h0
      · rw [if_neg hend]
        show QInv (expandState nbrs startP endP ent.2.2 (popState ent.2.2 rest s))
        unfold expandState
        dsimp only
        split
        · exact QInv_foldl endP ent.2.2 _ _ h0
        · exact QInv_foldl endP ent.2.2 _ _ h0

theorem QInv_run (nbrs : Pos → List Pos) (tags0 : Pos → Color)
    (startP endP : Pos) (k : Nat) :
    QInv (runFor nbrs tags0 startP endP k).state :=
  runFor_invariantL nbrs tags0 startP endP (fun ls => QInv ls.state)
    (QInv_init tags0 startP endP) (fun ls h => QInv_step nbrs startP endP ls h) k

/-! ### C10: insertion counts are pairwise distinct -/

/-- Claim C10: in every run, the insertion-sequence numbers of all
entries ever pushed onto the frontier are pairwise distinct (the counter
strictly increases across pushes), so comparing two simultaneously
queued entries is always decided by the `(f_score, count)` prefix of the
tuples and never falls through to comparing the two cells — the
argumentless `Node.__lt__` fallback is never consulted. -/
theorem C10_counts_distinct (nbrs : Pos → List Pos) (tags0 : Pos → Color)
    (startP endP : Pos) (k : Nat) :
    List.Pairwise (fun a b : Entry => a.2.1 < b.2.1)
      (runFor nbrs tags0 startP endP k).state.pushTrace ∧
    (∀ a ∈ (runFor nbrs tags0 startP endP k).state.openSet,
     ∀ b ∈ (runFor nbrs tags0 startP endP k).state.openSet,
        a ≠ b → ¬ (a.1 = b.1 ∧ a.2.1 = b.2.1)) := by
  obtain ⟨hpw, hbd, hsub⟩ := QInv_run nbrs tags0 startP endP k
  refine ⟨hpw, ?_⟩
  have hpw' : List.Pairwise (fun a b : Entry => a.2.1 ≠ b.2.1)
      (runFor nbrs tags0 startP endP k).state.openSet :=
    (List.Pairwise.sublist hsub hpw).imp (fun h => Nat.ne_of_lt h)
  have hsymm : Symmetric (fun a b : Entry => a.2.1 ≠ b.2.1) := by
    intro a b h
    exact h.symm
  have hall := List.Pairwise.forall hsymm hpw'
  intro a ha b hb hab hfc
  exact hall ha hb hab hfc.2

/-! ### C6: deterministic tie-break by insertion sequence -/

/-- Claim C6: at any reachable state of any run, the entry removed by
`PriorityQueue.get` is strictly below every other queue entry in the
lexicographic `(f_score, count)` order (so the dequeue is deterministic:
the ordering restricted to the live queue is total because insertion
counts are pairwise distinct), and among entries with equal f-score the
one with the least insertion count — the earliest inserted — is the one
dequeued. -/
theorem C6_tie_break (nbrs : Pos → List Pos) (tags0 : Pos → Color)
    (startP endP : Pos) (k : Nat) (s : AState)
    (hrun : runFor nbrs tags0 startP endP k = .running s)
    (ent : Entry) (rest : List Entry)
    (hpop : popMin s.openSet = some (ent, rest)) :
    (∀ x ∈ s.openSet, x ≠ ent → entryLt ent x) ∧
    (∀ c' : Nat, ∀ p' : Pos, (ent.1, c', p') ∈ s.openSet → ent.2.1 ≤ c') := by
  obtain ⟨hmem, hrest, hmin⟩ := popMin_spec hpop
  obtain ⟨hpw, hbd, hsub⟩ := QInv_run nbrs tags0 startP endP k
  rw [hrun] at hpw hbd hsub
  have hpw' : List.Pairwise (fun a b : Entry => a.2.1 ≠ b.2.1) s.openSet :=
    (List.Pairwise.sublist hsub hpw).imp (fun h => Nat.ne_of_lt h)
  have hsymm : Symmetric (fun a b : Entry => a.2.1 ≠ b.2.1) := by
    intro a b h
    exact h.symm
  have hall := List.Pairwise.forall hsymm hpw'
  constructor
  · intro x hx hne
    refine entryLt_of_not_of_ne (hmin x hx) ?_
    intro hfc
    exact hall hx hmem hne hfc.2
  · intro c' p' hx
    have := hmin _ hx
    unfold entryLt at this
    push_neg at this
    exact this.2 rfl

/-- Witness for C6 on a concrete reachable state: in the 3×3 wall-free
search from `(0,0)` to `(2,2)`, after one iteration the queue holds two
entries with equal f-score 4 and counts 1 and 2; the popped entry is
the earlier-inserted `(4, 1, (1,0))`. -/
theorem C6_tie_break_witness :
    (∀ x ∈ (runFor (updateNeighbors 3 (fun _ => Color.default))
        (fun _ => Color.default) (0, 0) (2, 2) 1).state.openSet,
        x ≠ ((4 : ℕ∞), 1, ((1, 0) : Pos)) →
        entryLt ((4 : ℕ∞), 1, ((1, 0) : Pos)) x) ∧
    (∀ c' : Nat, ∀ p' : Pos,
        (((4 : ℕ∞), 1, ((1, 0) : Pos)).1, c', p') ∈
          (runFor (updateNeighbors 3 (fun _ => Color.default))
            (fun _ => Color.default) (0, 0) (2, 2) 1).state.openSet →
        ((4 : ℕ∞), 1, ((1, 0) : Pos)).2.1 ≤ c') :=
  C6_tie_break (updateNeighbors 3 (fun _ => Color.default))
    (fun _ => Color.default) (0, 0) (2, 2) 1 _ rfl
    ((4 : ℕ∞), 1, ((1, 0) : Pos)) [((4 : ℕ∞), 2, ((0, 1) : Pos))] (by decide)

/-! ### C9: the end cell is never tagged Closed -/

theorem relaxOne_tags (endP current : Pos) (s : AState) (nbr p : Pos) :
    (relaxOne endP current s nbr).tags p = s.tags p ∨
    (relaxOne endP current s nbr).tags p = Color.cyan := by
  unfold relaxOne
  by_cases himp : s.g current + 1 < s.g nbr
  · rw [if_pos himp]
    dsimp only
    split
    · exact Or.inl rfl
    · by_cases hp : p = nbr
      · right; simp [hp]
      · left; simp [hp]
  · rw [if_neg himp]
    exact Or.inl rfl

theorem foldl_relax_tags (endP current : Pos) (l : List Pos) :
    ∀ (s : AState) (p : Pos),
      (l.foldl (relaxOne endP current) s).tags p = s.tags p ∨
      (l.foldl (relaxOne endP current) s).tags p = Color.cyan := by
  induction l with
  | nil => intro s p; exact Or.inl rfl
  | cons x xs ih =>
    intro s p
    simp only [List.foldl_cons]
    rcases ih (relaxOne endP current s x) p with h | h
    · rw [h]
      exact relaxOne_tags endP current s x p
    · exact Or.inr h

theorem relaxOne_popTrace (endP current : Pos) (s : AState) (nbr : Pos) :
    (relaxOne endP current s nbr).popTrace = s.popTrace := by
  unfold relaxOne
  dsimp only
  split
  · split
    · rfl
    · rfl
  · rfl

theorem foldl_relax_popTrace (endP current : Pos) (l : List Pos) :
    ∀ s : AState, (l.foldl (relaxOne endP current) s).popTrace = s.popTrace := by
  induction l with
  | nil => intro s; rfl
  | cons x xs ih =>
    intro s
    simp only [List.foldl_cons]
    rw [ih, relaxOne_popTrace]

theorem relaxOne_pathTrace (endP current : Pos) (s : AState) (nbr : Pos) :
    (relaxOne endP current s nbr).pathTrace = s.pathTrace := by
  unfold relaxOne
  dsimp only
  split
  · split
    · rfl
    · rfl
  · rfl

theorem foldl_relax_pathTrace (endP current : Pos) (l : List Pos) :
    ∀ s : AState, (l.foldl (relaxOne endP current) s).pathTrace = s.pathTrace := by
  induction l with
  | nil => intro s; rfl
  | cons x xs ih =>
    intro s
    simp only [List.foldl_cons]
    rw [ih, relaxOne_pathTrace]

theorem expandState_popTrace (nbrs : Pos → List Pos) (startP endP current : Pos)
    (s0 : AState) :
    (expandState nbrs startP endP current s0).popTrace = s0.popTrace := by
  unfold expandState
  dsimp only
  split
  · exact foldl_relax_popTrace endP current (nbrs current) s0
  · exact foldl_relax_popTrace endP current (nbrs current) s0

theorem expandState_pathTrace (nbrs : Pos → List Pos) (startP endP current : Pos)
    (s0 : AState) :
    (expandState nbrs startP endP current s0).pathTrace = s0.pathTrace := by
  unfold expandState
  dsimp only
  split
  · exact foldl_relax_pathTrace endP current (nbrs current) s0
  · exact foldl_relax_pathTrace endP current (nbrs current) s0

/-- Claim C9: in every run with `start ≠ end` whose initial colors do
not already mark `end` Closed, the end cell is never tagged
Closed/Visited at any step — the success check on the popped cell
precedes both neighbor expansion and Closed-tagging, and the run
returns the first time `end` is popped, so while the loop is still
running `end` has never been popped. -/
theorem C9_end_never_closed (nbrs : Pos → List Pos) (tags0 : Pos → Color)
    (startP endP : Pos) (hneq : startP ≠ endP)
    (hinit : tags0 endP ≠ Color.turquoise) (k : Nat) :
    (runFor nbrs tags0 startP endP k).state.tags endP ≠ Color.turquoise ∧
    ((runFor nbrs tags0 startP endP k).isRunning = true →
      endP ∉ (runFor nbrs tags0 startP endP k).state.popTrace) := by
  refine runFor_invariantL nbrs tags0 startP endP
    (fun ls => ls.state.tags endP ≠ Color.turquoise ∧
      (ls.isRunning = true → endP ∉ ls.state.popTrace)) ⟨hinit, ?_⟩ ?_ k
  · intro _
    simp [initState, LoopState.state]
  · intro ls ⟨htag, hpop⟩
    cases ls with
    | done b s => exact ⟨htag, hpop⟩
    | hung s => exact ⟨htag, hpop⟩
    | running s =>
      show (stepRun nbrs startP endP s).state.tags endP ≠ Color.turquoise ∧
        ((stepRun nbrs startP endP s).isRunning = true →
          endP ∉ (stepRun nbrs startP endP s).state.popTrace)
      unfold stepRun
      cases hpm : popMin s.openSet with
      | none => exact ⟨htag, fun h => Bool.noConfusion h⟩
      | some pr =>
        obtain ⟨ent, rest⟩ := pr
        simp only
        by_cases hend : ent.2.2 = endP
        · rw [if_pos hend]
          unfold finishState
          cases hrc : reconstructPath ((popState ent.2.2 rest s).cameFrom.length + 1)
              (popState ent.2.2 rest s).cameFrom endP (popState ent.2.2 rest s).tags [] with
          | none => exact ⟨htag, fun h => Bool.noConfusion h⟩
          | some pr2 =>
            obtain ⟨tags', path⟩ := pr2
            refine ⟨?_, fun h => Bool.noConfusion h⟩
            show (if endP = endP then Color.yellow else tags' endP) ≠ Color.turquoise
            simp
        · rw [if_neg hend]
          refine ⟨?_, ?_⟩
          · show (expandState nbrs startP endP ent.2.2 (popState ent.2.2 rest s)).tags endP ≠
              Color.turquoise
            unfold expandState
            dsimp only
            have hfold := foldl_relax_tags endP ent.2.2 (nbrs ent.2.2)
              (popState ent.2.2 rest s) endP
            have hps : (popState ent.2.2 rest s).tags endP = s.tags endP := rfl
            split
            · show (fun p => if p = ent.2.2 then Color.turquoise else _) endP ≠ Color.turquoise
              simp only
              rw [if_neg (fun h => hend h.symm)]
              rcases hfold with h | h
              · rw [h, hps]; exact htag
              · rw [h]; intro hc; exact Color.noConfusion hc
            · rcases hfold with h | h
              · rw [h, hps]; exact htag
              · rw [h]; intro hc; exact Color.noConfusion hc
          · intro _
            show endP ∉ (LoopState.running
              (expandState nbrs startP endP ent.2.2 (popState ent.2.2 rest s))).state.popTrace
            rw [show (LoopState.running
                (expandState nbrs startP endP ent.2.2 (popState ent.2.2 rest s))).state =
                expandState nbrs startP endP ent.2.2 (popState ent.2.2 rest s) from rfl,
              expandState_popTrace]
            show endP ∉ s.popTrace ++ [ent.2.2]
            rw [List.mem_append]
            rintro (h | h)
            · exact hpop rfl h
            · rw [List.mem_singleton] at h
              exact hend h.symm

/-- Witness for C9: the 3×3 wall-free search from `(0,0)` to `(2,2)`,
after 3 iterations. -/
theorem C9_end_never_closed_witness :
    (runFor (updateNeighbors 3 (fun _ => Color.default)) (fun _ => Color.default)
      (0, 0) (2, 2) 3).state.tags (2, 2) ≠ Color.turquoise ∧
    ((runFor (updateNeighbors 3 (fun _ => Color.default)) (fun _ => Color.default)
      (0, 0) (2, 2) 3).isRunning = true →
      (2, 2) ∉ (runFor (updateNeighbors 3 (fun _ => Color.default))
        (fun _ => Color.default) (0, 0) (2, 2) 3).state.popTrace) :=
  C9_end_never_closed (updateNeighbors 3 (fun _ => Color.default))
    (fun _ => Color.default) (0, 0) (2, 2) (by decide) (by decide) 3

/-- Witness for C4: a concrete 5×5 grid with start = end = `(3,3)`. -/
theorem C4_start_eq_end_witness :
    ∃ st : AState,
      runFor (updateNeighbors 5 (fun _ => Color.default)) (fun _ => Color.default)
        (3, 3) (3, 3) 1 = .done true st ∧
      st.popTrace = [(3, 3)] ∧
      st.pathTrace = [] ∧
      st.tags (3, 3) = Color.yellow ∧
      (∀ p : Pos, p ≠ (3, 3) → st.tags p = (fun _ => Color.default) p) :=
  C4_start_eq_end (updateNeighbors 5 (fun _ => Color.default))
    (fun _ => Color.default) (3, 3) 1 (by decide)

/-- Witness for C7: between iterations 1 and 4 of the 3×3 wall-free
search, the g-score of `(1,0)` does not increase. -/
theorem C7_g_monotone_witness :
    (runFor (updateNeighbors 3 (fun _ => Color.default)) (fun _ => Color.default)
      (0, 0) (2, 2) 4).state.g (1, 0) ≤
    (runFor (updateNeighbors 3 (fun _ => Color.default)) (fun _ => Color.default)
      (0, 0) (2, 2) 1).state.g (1, 0) :=
  C7_g_monotone (updateNeighbors 3 (fun _ => Color.default))
    (fun _ => Color.default) (0, 0) (2, 2) 1 4 (1, 0) (by decide)

/-! ### The predecessor dictionary -/

theorem lookup_cons_eq {l : List (Pos × Pos)} {a : Pos × Pos} {k : Pos}
    (hk : k = a.1) : (a :: l).lookup k = some a.2 := by
  rw [List.lookup, beq_iff_eq.mpr hk]

theorem lookup_cons_ne {l : List (Pos × Pos)} {a : Pos × Pos} {k : Pos}
    (hk : ¬ k = a.1) : (a :: l).lookup k = l.lookup k := by
  rw [List.lookup, beq_eq_false_iff_ne.mpr hk]

theorem lookup_mem {l : List (Pos × Pos)} {k v : Pos}
    (h : l.lookup k = some v) : (k, v) ∈ l := by
  induction l with
  | nil => simp [List.lookup] at h
  | cons a t ih =>
    by_cases hk : k = a.1
    · rw [lookup_cons_eq hk] at h
      obtain rfl : a.2 = v := by simpa using h
      rw [hk]
      exact List.mem_cons_self _ _
    · rw [lookup_cons_ne hk] at h
      exact List.mem_cons_of_mem _ (ih h)

theorem lookup_none_key {l : List (Pos × Pos)} {k : Pos}
    (h : l.lookup k = none) : ∀ pr ∈ l, pr.1 ≠ k := by
  induction l with
  | nil => intro pr hpr; simp at hpr
  | cons a t ih =>
    intro pr hpr
    by_cases hk : k = a.1
    · rw [lookup_cons_eq hk] at h
      exact Option.noConfusion h
    · rw [lookup_cons_ne hk] at h
      rcases List.mem_cons.mp hpr with rfl | hpr'
      · exact fun hh => hk hh.symm
      · exact ih h pr hpr'

theorem lookup_append_none {l l' : List (Pos × Pos)} {k : Pos}
    (h : l.lookup k = none) : (l ++ l').lookup k = l'.lookup k := by
  induction l with
  | nil => rfl
  | cons a t ih =>
    by_cases hk : k = a.1
    · rw [lookup_cons_eq hk] at h
      exact Option.noConfusion h
    · rw [lookup_cons_ne hk] at h
      rw [List.cons_append, lookup_cons_ne hk]
      exact ih h

theorem lookup_append_some {l l' : List (Pos × Pos)} {k : Pos} {v : Pos}
    (h : l.lookup k = some v) : (l ++ l').lookup k = some v := by
  induction l with
  | nil => simp [List.lookup] at h
  | cons a t ih =>
    by_cases hk : k = a.1
    · rw [lookup_cons_eq hk] at h
      rw [List.cons_append, lookup_cons_eq hk]
      exact h
    · rw [lookup_cons_ne hk] at h
      rw [List.cons_append, lookup_cons_ne hk]
      exact ih h

theorem map_replace_lookup (t : List (Pos × Pos)) (k v q : Pos)
    (ht : t.lookup k = none) :
    (t.map (fun kv => if kv.1 = k then (k, v) else kv)).lookup q = t.lookup q := by
  induction t with
  | nil => rfl
  | cons b u ihb =>
    by_cases hbk : k = b.1
    · rw [lookup_cons_eq hbk] at ht
      exact Option.noConfusion ht
    · rw [lookup_cons_ne hbk] at ht
      rw [List.map_cons, if_neg (fun hh => hbk hh.symm)]
      by_cases hqb : q = b.1
      · rw [lookup_cons_eq hqb, lookup_cons_eq hqb]
      · rw [lookup_cons_ne hqb, lookup_cons_ne hqb]
        exact ihb ht

theorem cfInsert_lookup (l : List (Pos × Pos)) (k v q : Pos) :
    (cfInsert l k v).lookup q = if q = k then some v else l.lookup q := by
  unfold cfInsert
  by_cases hmem : (l.lookup k).isSome
  · rw [if_pos hmem]
    induction l with
    | nil => simp [List.lookup] at hmem
    | cons a t ih =>
      rw [List.map_cons]
      by_cases hak : a.1 = k
      · rw [if_pos hak]
        by_cases hq : q = k
        · rw [lookup_cons_eq (by simpa using hq), if_pos hq]
        · rw [lookup_cons_ne (by simpa using hq), if_neg hq,
            lookup_cons_ne (fun hh => hq (hh.trans hak))]
          by_cases ht : (t.lookup k).isSome
          · exact (ih ht).trans (if_neg hq)
          · rw [Option.not_isSome_iff_eq_none] at ht
            rw [map_replace_lookup t k v q ht]
      · rw [if_neg hak]
        by_cases hqa : q = a.1
        · have hqk : ¬ q = k := fun h => hak ((hqa ▸ h : a.1 = k))
          rw [lookup_cons_eq hqa, lookup_cons_eq hqa, if_neg hqk]
        · rw [lookup_cons_ne hqa, lookup_cons_ne hqa]
          rw [lookup_cons_ne (fun hh => hak hh.symm)] at hmem
          exact ih hmem
  · rw [if_neg hmem]
    rw [Option.not_isSome_iff_eq_none] at hmem
    by_cases hq : q = k
    · rw [if_pos hq, hq, lookup_append_none hmem]
      exact lookup_cons_eq rfl
    · rw [if_neg hq]
      cases hlq : l.lookup q with
      | none =>
        rw [lookup_append_none hlq]
        rw [lookup_cons_ne (by simpa using hq)]
        rfl
      | some w => exact lookup_append_some hlq

theorem cfInsert_mem {l : List (Pos × Pos)} {k v : Pos} {pr : Pos × Pos}
    (h : pr ∈ cfInsert l k v) : pr = (k, v) ∨ (pr ∈ l ∧ pr.1 ≠ k) := by
  unfold cfInsert at h
  by_cases hmem : (l.lookup k).isSome
  · rw [if_pos hmem] at h
    rw [List.mem_map] at h
    obtain ⟨a, ha, hfa⟩ := h
    by_cases hak : a.1 = k
    · rw [if_pos hak] at hfa
      exact Or.inl hfa.symm
    · rw [if_neg hak] at hfa
      exact Or.inr ⟨hfa ▸ ha, hfa ▸ hak⟩
  · rw [if_neg hmem] at h
    rw [Option.not_isSome_iff_eq_none] at hmem
    rw [List.mem_append, List.mem_singleton] at h
    rcases h with h | h
    · exact Or.inr ⟨h, lookup_none_key hmem pr h⟩
    · exact Or.inl h

/-! ### Behavior of reconstruct_path on well-founded predecessor maps -/

theorem filter_sublist_of_imp {α : Type} (l : List α) (p q : α → Bool)
    (himp : ∀ a ∈ l, q a = true → p a = true) :
    (l.filter q).Sublist (l.filter p) := by
  induction l with
  | nil => exact List.Sublist.refl _
  | cons x xs ih =>
    have ih' := ih (fun a ha => himp a (List.mem_cons_of_mem _ ha))
    by_cases hq : q x = true
    · have hp := himp x (List.mem_cons_self _ _) hq
      rw [List.filter_cons_of_pos hq, List.filter_cons_of_pos hp]
      exact List.Sublist.cons₂ x ih'
    · rw [List.filter_cons_of_neg (by simpa using hq)]
      by_cases hp : p x = true
      · rw [List.filter_cons_of_pos hp]
        exact List.Sublist.cons x ih'
      · rw [List.filter_cons_of_neg (by simpa using hp)]
        exact ih'

theorem filter_length_lt {α : Type} (l : List α) (p q : α → Bool)
    (himp : ∀ a ∈ l, q a = true → p a = true) (a0 : α) (ha0 : a0 ∈ l)
    (hp : p a0 = true) (hq : q a0 = false) :
    (l.filter q).length < (l.filter p).length := by
  induction l with
  | nil => simp at ha0
  | cons x xs ih =>
    have himp' : ∀ a ∈ xs, q a = true → p a = true :=
      fun a ha => himp a (List.mem_cons_of_mem _ ha)
    have hsub := filter_sublist_of_imp xs p q himp'
    rcases List.mem_cons.mp ha0 with rfl | ha0'
    · rw [List.filter_cons_of_pos hp, List.filter_cons_of_neg (by simp [hq])]
      exact Nat.lt_succ_of_le hsub.length_le
    · have ihlt := ih himp' ha0'
      by_cases hqx : q x = true
      · have hpx := himp x (List.mem_cons_self _ _) hqx
        rw [List.filter_cons_of_pos hqx, List.filter_cons_of_pos hpx]
        exact Nat.succ_lt_succ ihlt
      · rw [List.filter_cons_of_neg (by simpa using hqx)]
        by_cases hpx : p x = true
        · rw [List.filter_cons_of_pos hpx]
          exact Nat.lt_succ_of_lt ihlt
        · rw [List.filter_cons_of_neg (by simpa using hpx)]
          exact ihlt

theorem reconstructPath_spec (cf : List (Pos × Pos)) (g : Pos → ℕ∞) (startP : Pos)
    (hdec : ∀ pr ∈ cf, g pr.2 < g pr.1)
    (hclose : ∀ pr ∈ cf, pr.2 = startP ∨ (cf.lookup pr.2).isSome) :
    ∀ (k : ℕ) (cur : Pos) (tags : Pos → Color) (acc : List Pos) (fuel : ℕ),
    ((cf.filter (fun pr => decide (g pr.1 ≤ g cur))).length ≤ k) →
    ((cf.filter (fun pr => decide (g pr.1 ≤ g cur))).length < fuel) →
    ∃ (tags' : Pos → Color) (chain : List Pos),
      reconstructPath fuel cf cur tags acc = some (tags', acc ++ chain) ∧
      (∀ p ∈ chain, tags' p = Color.white) ∧
      (∀ p, p ∉ chain → tags' p = tags p) ∧
      (∀ p ∈ chain, g p < g cur) ∧
      ((cf.lookup cur).isSome → startP ∈ chain) ∧
      (cf.lookup cur = none → chain = []) ∧
      List.Chain' (fun a b => cf.lookup a = some b) (cur :: chain) ∧
      (∀ hne : chain ≠ [], cf.lookup (chain.getLast hne) = none) := by
  intro k
  induction k with
  | zero =>
    intro cur tags acc fuel hk hfuel
    cases hcur : cf.lookup cur with
    | none =>
      refine ⟨tags, [], ?_, by simp, fun p _ => rfl, by simp, ?_, fun _ => rfl,
        List.chain'_singleton _, fun hne => absurd rfl hne⟩
      · rw [List.append_nil]
        cases fuel with
        | zero => unfold reconstructPath; rw [hcur]
        | succ f => unfold reconstructPath; rw [hcur]
      · intro hs
        simp at hs
    | some nxt =>
      exfalso
      have hmem : (cur, nxt) ∈ cf := lookup_mem hcur
      have hfil : (cur, nxt) ∈ cf.filter (fun pr => decide (g pr.1 ≤ g cur)) := by
        rw [List.mem_filter]
        exact ⟨hmem, by simp⟩
      have : 0 < (cf.filter (fun pr => decide (g pr.1 ≤ g cur))).length :=
        List.length_pos.mpr (fun he => by rw [he] at hfil; simp at hfil)
      omega
  | succ k ih =>
    intro cur tags acc fuel hk hfuel
    cases hcur : cf.lookup cur with
    | none =>
      refine ⟨tags, [], ?_, by simp, fun p _ => rfl, by simp, ?_, fun _ => rfl,
        List.chain'_singleton _, fun hne => absurd rfl hne⟩
      · rw [List.append_nil]
        cases fuel with
        | zero => unfold reconstructPath; rw [hcur]
        | succ f => unfold reconstructPath; rw [hcur]
      · intro hs
        simp at hs
    | some nxt =>
      have hmem : (cur, nxt) ∈ cf := lookup_mem hcur
      have hgn : g nxt < g cur := hdec (cur, nxt) hmem
      have hmlt : (cf.filter (fun pr => decide (g pr.1 ≤ g nxt))).length <
          (cf.filter (fun pr => decide (g pr.1 ≤ g cur))).length := by
        refine filter_length_lt cf _ _ ?_ (cur, nxt) hmem (by simp) ?_
        · intro a _ ha
          rw [decide_eq_true_iff] at ha ⊢
          exact le_trans ha (le_of_lt hgn)
        · rw [decide_eq_false_iff_not]
          exact not_le_of_lt hgn
      cases fuel with
      | zero => omega
      | succ f =>
        have hrec := ih nxt (fun p => if p = nxt then Color.white else tags p)
          (acc ++ [nxt]) f (by omega) (by omega)
        obtain ⟨tags', chain₁, hres, hwhite, huntouched, hgb, hstart, hnone,
          hchain₁, hlast₁⟩ := hrec
        refine ⟨tags', nxt :: chain₁, ?_, ?_, ?_, ?_, ?_, ?_, ?_, ?_⟩
        · have hstep : reconstructPath (f + 1) cf cur tags acc =
              reconstructPath f cf nxt
                (fun p => if p = nxt then Color.white else tags p) (acc ++ [nxt]) := by
            conv_lhs => rw [reconstructPath]
            rw [hcur]
          rw [hstep, hres, List.append_assoc, List.singleton_append]
        · intro p hp
          rcases List.mem_cons.mp hp with rfl | hp'
          · by_cases hpc : p ∈ chain₁
            · exact hwhite p hpc
            · rw [huntouched p hpc]
              simp
          · exact hwhite p hp'
        · intro p hp
          rw [List.mem_cons] at hp
          push_neg at hp
          rw [huntouched p hp.2]
          simp [hp.1]
        · intro p hp
          rcases List.mem_cons.mp hp with rfl | hp'
          · exact hgn
          · exact lt_trans (hgb p hp') hgn
        · intro _
          rcases hclose (cur, nxt) hmem with hs | hs
          · have hs' : nxt = startP := hs
            rw [← hs']
            exact List.mem_cons_self _ _
          · exact List.mem_cons_of_mem _ (hstart hs)
        · intro hs
          exact Option.noConfusion hs
        · rw [List.chain'_cons]
          exact ⟨hcur, hchain₁⟩
        · intro hne
          by_cases hc1 : chain₁ = []
          · subst hc1
            show cf.lookup nxt = none
            cases hl : cf.lookup nxt with
            | none => rfl
            | some w =>
              have := hstart (by rw [hl]; rfl)
              simp at this
          · rw [List.getLast_cons hc1]
            exact hlast₁ hc1

/-! ### The core search invariant -/

theorem enat_lt_succ {x : ℕ∞} (hx : x ≠ ⊤) : x < x + 1 := by
  lift x to ℕ using hx
  exact_mod_cast Nat.lt_succ_self x

theorem enat_not_succ_lt {x : ℕ∞} : ¬ (x + 1 < x) :=
  not_lt_of_le le_self_add

theorem enat_not_lt_zero (x : ℕ∞) : ¬ (x < 0) :=
  not_lt_of_le (zero_le x)

/-- The invariant tying `g_score` and `came_from` together during a run:
`g_score[start] = 0`; every predecessor edge strictly decreases the
g-score and its source has a finite g-score; `start` never acquires a
predecessor; every predecessor target is `start` or itself has a
predecessor; and every queued cell is `start` or has a predecessor. -/
def SInv (startP : Pos) (s : AState) : Prop :=
  s.g startP = 0 ∧
  (∀ pr ∈ s.cameFrom, s.g pr.1 ≠ ⊤ ∧ s.g pr.2 < s.g pr.1) ∧
  s.cameFrom.lookup startP = none ∧
  (∀ pr ∈ s.cameFrom, pr.2 = startP ∨ (s.cameFrom.lookup pr.2).isSome = true) ∧
  (∀ ent ∈ s.openSet, ent.2.2 = startP ∨ (s.cameFrom.lookup ent.2.2).isSome = true)

theorem SInv_init (tags0 : Pos → Color) (startP endP : Pos) :
    SInv startP (initState tags0 startP endP) := by
  refine ⟨by simp [initState], ?_, rfl, ?_, ?_⟩
  · intro pr hpr
    simp [initState] at hpr
  · intro pr hpr
    simp [initState] at hpr
  · intro ent hent
    simp [initState] at hent
    exact Or.inl (by rw [hent])

theorem SInv_g_ne_top {startP : Pos} {s : AState} (h : SInv startP s) (current : Pos)
    (hc : current = startP ∨ (s.cameFrom.lookup current).isSome = true) :
    s.g current ≠ ⊤ := by
  rcases hc with rfl | hc
  · rw [h.1]
    exact (by simp : (0 : ℕ∞) ≠ ⊤)
  · rw [Option.isSome_iff_exists] at hc
    obtain ⟨v, hv⟩ := hc
    exact (h.2.1 _ (lookup_mem hv)).1

theorem relaxOne_SInvC (endP current : Pos) (s : AState) (nbr : Pos)
    (h : SInv startP s)
    (hc : current = startP ∨ (s.cameFrom.lookup current).isSome = true) :
    SInv startP (relaxOne endP current s nbr) ∧
    (current = startP ∨
      ((relaxOne endP current s nbr).cameFrom.lookup current).isSome = true) := by
  obtain ⟨hg0, hpairs, hstart, hclose, hqueue⟩ := h
  have hgcur : s.g current ≠ ⊤ :=
    SInv_g_ne_top ⟨hg0, hpairs, hstart, hclose, hqueue⟩ current hc
  unfold relaxOne
  by_cases himp : s.g current + 1 < s.g nbr
  · rw [if_pos himp]
    have hnbr_ne_start : nbr ≠ startP := by
      intro hns
      rw [hns, hg0] at himp
      exact enat_not_lt_zero _ himp
    have hnbr_ne_cur : nbr ≠ current := by
      intro hnc
      rw [hnc] at himp
      exact enat_not_succ_lt himp
    set g' : Pos → ℕ∞ := fun p => if p = nbr then s.g current + 1 else s.g p with hg'
    have hg'cur : g' current = s.g current := by
      rw [hg']
      simp only
      rw [if_neg (fun hh => hnbr_ne_cur hh.symm)]
    have hg'start : g' startP = 0 := by
      rw [hg']
      simp only
      rw [if_neg (fun hh => hnbr_ne_start hh.symm), hg0]
    have hg'le : ∀ p, g' p ≤ s.g p := by
      intro p
      rw [hg']
      simp only
      by_cases hp : p = nbr
      · rw [if_pos hp, hp]
        exact le_of_lt himp
      · rw [if_neg hp]
    have hg'pairs : ∀ pr ∈ cfInsert s.cameFrom nbr current,
        g' pr.1 ≠ ⊤ ∧ g' pr.2 < g' pr.1 := by
      intro pr hpr
      rcases cfInsert_mem hpr with rfl | ⟨hold, hkey⟩
      · constructor
        · show g' nbr ≠ ⊤
          rw [hg']
          simp only [if_pos rfl]
          exact ne_top_of_lt himp
        · show g' current < g' nbr
          rw [hg'cur, hg']
          simp only [if_pos rfl]
          exact enat_lt_succ hgcur
      · have h1 : g' pr.1 = s.g pr.1 := by
          rw [hg']
          simp only
          rw [if_neg hkey]
        constructor
        · rw [h1]
          exact (hpairs pr hold).1
        · rw [h1]
          exact lt_of_le_of_lt (hg'le pr.2) (hpairs pr hold).2
    have hlk : ∀ q, (cfInsert s.cameFrom nbr current).lookup q =
        if q = nbr then some current else s.cameFrom.lookup q :=
      fun q => cfInsert_lookup s.cameFrom nbr current q
    have hstart' : (cfInsert s.cameFrom nbr current).lookup startP = none := by
      rw [hlk, if_neg (fun hh => hnbr_ne_start hh.symm)]
      exact hstart
    have hkeep : ∀ q, (s.cameFrom.lookup q).isSome = true →
        ((cfInsert s.cameFrom nbr current).lookup q).isSome = true := by
      intro q hq
      rw [hlk]
      by_cases hqn : q = nbr
      · rw [if_pos hqn]; rfl
      · rw [if_neg hqn]; exact hq
    have hcurc' : current = startP ∨
        ((cfInsert s.cameFrom nbr current).lookup current).isSome = true := by
      rcases hc with hcs | hcs
      · exact Or.inl hcs
      · exact Or.inr (hkeep current hcs)
    have hclose' : ∀ pr ∈ cfInsert s.cameFrom nbr current,
        pr.2 = startP ∨ ((cfInsert s.cameFrom nbr current).lookup pr.2).isSome = true := by
      intro pr hpr
      rcases cfInsert_mem hpr with rfl | ⟨hold, _⟩
      · show current = startP ∨ _
        exact hcurc'
      · rcases hclose pr hold with hh | hh
        · exact Or.inl hh
        · exact Or.inr (hkeep pr.2 hh)
    dsimp only
    split
    · exact ⟨⟨hg'start, hg'pairs, hstart', hclose', fun ent hent => by
        rcases hqueue ent hent with hh | hh
        · exact Or.inl hh
        · exact Or.inr (hkeep ent.2.2 hh)⟩, hcurc'⟩
    · refine ⟨⟨hg'start, hg'pairs, hstart', hclose', ?_⟩, hcurc'⟩
      intro ent hent
      rw [List.mem_append, List.mem_singleton] at hent
      rcases hent with hent | rfl
      · rcases hqueue ent hent with hh | hh
        · exact Or.inl hh
        · exact Or.inr (hkeep ent.2.2 hh)
      · refine Or.inr ?_
        show ((cfInsert s.cameFrom nbr current).lookup nbr).isSome = true
        rw [hlk, if_pos rfl]
        rfl
  · rw [if_neg himp]
    exact ⟨⟨hg0, hpairs, hstart, hclose, hqueue⟩, hc⟩

theorem foldl_relax_SInvC (endP current : Pos) (l : List Pos) :
    ∀ s : AState,
      SInv startP s →
      (current = startP ∨ (s.cameFrom.lookup current).isSome = true) →
      SInv startP (l.foldl (relaxOne endP current) s) := by
  induction l with
  | nil => intro s h _; exact h
  | cons x xs ih =>
    intro s h hc
    obtain ⟨h', hc'⟩ := relaxOne_SInvC endP current s x h hc
    exact ih _ h' hc'

theorem SInv_popState {startP : Pos} {s : AState} (h : SInv startP s)
    (current : Pos) (rest : List Entry) (hrest : ∀ ent ∈ rest, ent ∈ s.openSet) :
    SInv startP (popState current rest s) := by
  obtain ⟨hg0, hpairs, hstart, hclose, hqueue⟩ := h
  exact ⟨hg0, hpairs, hstart, hclose, fun ent hent => hqueue ent (hrest ent hent)⟩

theorem SInv_step (nbrs : Pos → List Pos) (startP endP : Pos) (ls : LoopState)
    (h : SInv startP ls.state) : SInv startP (stepL nbrs startP endP ls).state := by
  cases ls with
  | done b s => exact h
  | hung s => exact h
  | running s =>
    show SInv startP (stepRun nbrs startP endP s).state
    unfold stepRun
    cases hpm : popMin s.openSet with
    | none => exact h
    | some pr =>
      obtain ⟨ent, rest⟩ := pr
      obtain ⟨hmem, hrest, hmin⟩ := popMin_spec hpm
      have hrest' : ∀ e ∈ rest, e ∈ s.openSet := by
        intro e he
        rw [hrest] at he
        exact List.mem_of_mem_erase he
      have h0 : SInv startP (popState ent.2.2 rest s) :=
        SInv_popState h ent.2.2 rest hrest'
      have hcur : ent.2.2 = startP ∨
          ((popState ent.2.2 rest s).cameFrom.lookup ent.2.2).isSome = true :=
        h.2.2.2.2 ent hmem
      simp only
      by_cases hend : ent.2.2 = endP
      · rw [if_pos hend]
        unfold finishState
        cases hrc : reconstructPath ((popState ent.2.2 rest s).cameFrom.length + 1)
            (popState ent.2.2 rest s).cameFrom endP (popState ent.2.2 rest s).tags [] with
        | none => exact h0
        | some pr2 =>
          obtain ⟨tags', path⟩ := pr2
          exact h0
      · rw [if_neg hend]
        show SInv startP (expandState nbrs startP endP ent.2.2 (popState ent.2.2 rest s))
        unfold expandState
        dsimp only
        have hfold := foldl_relax_SInvC endP ent.2.2 (nbrs ent.2.2)
          (popState ent.2.2 rest s) h0 hcur
        split
        · obtain ⟨hg0, hpairs, hstart, hclose, hqueue⟩ := hfold
          exact ⟨hg0, hpairs, hstart, hclose, hqueue⟩
        · exact hfold

theorem SInv_run (nbrs : Pos → List Pos) (tags0 : Pos → Color)
    (startP endP : Pos) (k : Nat) :
    SInv startP (runFor nbrs tags0 startP endP k).state :=
  runFor_invariantL nbrs tags0 startP endP (fun ls => SInv startP ls.state)
    (SInv_init tags0 startP endP) (fun ls h => SInv_step nbrs startP endP ls h) k

/-! ### C2: what reconstruction does to the start cell -/

theorem finish_good (startP endP : Pos) (hne : startP ≠ endP) (s0 : AState)
    (h : SInv startP s0)
    (hlook : (s0.cameFrom.lookup endP).isSome = true)
    (hpt : s0.pathTrace = []) :
    ∃ st, finishState endP s0 = .done true st ∧
      st.tags startP = Color.white ∧
      st.tags endP = Color.yellow ∧
      startP ∈ st.pathTrace ∧
      (∀ p ∈ st.pathTrace, st.tags p = Color.white ∧ p ≠ endP) := by
  obtain ⟨hg0, hpairs, hstartl, hclose, _⟩ := h
  obtain ⟨tags₁, chain, hres, hwhite, huntouch, hgb, hstartmem, _, _, _⟩ :=
    reconstructPath_spec s0.cameFrom s0.g startP
      (fun pr hpr => (hpairs pr hpr).2) hclose
      ((s0.cameFrom.filter (fun pr => decide (s0.g pr.1 ≤ s0.g endP))).length)
      endP s0.tags [] (s0.cameFrom.length + 1)
      (le_refl _) (Nat.lt_succ_of_le (List.length_filter_le _ _))
  unfold finishState
  rw [hres]
  refine ⟨_, rfl, ?_, ?_, ?_, ?_⟩
  · show (if startP = endP then Color.yellow else tags₁ startP) = Color.white
    rw [if_neg hne]
    exact hwhite startP (hstartmem hlook)
  · show (if endP = endP then Color.yellow else tags₁ endP) = Color.yellow
    rw [if_pos rfl]
  · show startP ∈ s0.pathTrace ++ ([] ++ chain)
    rw [hpt, List.nil_append, List.nil_append]
    exact hstartmem hlook
  · intro p hp
    rw [show ({ s0 with
        tags := fun p => if p = endP then Color.yellow else tags₁ p
        pathTrace := s0.pathTrace ++ ([] ++ chain) } : AState).pathTrace =
        s0.pathTrace ++ ([] ++ chain) from rfl, hpt, List.nil_append,
        List.nil_append] at hp
    have hpe : p ≠ endP := by
      intro hpe
      rw [hpe] at hp
      exact absurd (hgb endP hp) (lt_irrefl _)
    constructor
    · show (if p = endP then Color.yellow else tags₁ p) = Color.white
      rw [if_neg hpe]
      exact hwhite p hp
    · exact hpe

theorem pathTrace_running (nbrs : Pos → List Pos) (tags0 : Pos → Color)
    (startP endP : Pos) (k : Nat) :
    (runFor nbrs tags0 startP endP k).isRunning = true →
    (runFor nbrs tags0 startP endP k).state.pathTrace = [] := by
  refine runFor_invariantL nbrs tags0 startP endP
    (fun ls => ls.isRunning = true → ls.state.pathTrace = []) (fun _ => rfl) ?_ k
  intro ls hP
  cases ls with
  | done b s => intro hh; exact Bool.noConfusion hh
  | hung s => intro hh; exact Bool.noConfusion hh
  | running s =>
    show (stepRun nbrs startP endP s).isRunning = true →
      (stepRun nbrs startP endP s).state.pathTrace = []
    unfold stepRun
    cases hpm : popMin s.openSet with
    | none => intro hh; exact Bool.noConfusion hh
    | some pr =>
      obtain ⟨ent, rest⟩ := pr
      simp only
      by_cases hend : ent.2.2 = endP
      · rw [if_pos hend]
        unfold finishState
        cases hrc : reconstructPath ((popState ent.2.2 rest s).cameFrom.length + 1)
            (popState ent.2.2 rest s).cameFrom endP (popState ent.2.2 rest s).tags [] with
        | none => intro hh; exact Bool.noConfusion hh
        | some pr2 =>
          obtain ⟨tags', path⟩ := pr2
          intro hh; exact Bool.noConfusion hh
      · rw [if_neg hend]
        intro _
        show (expandState nbrs startP endP ent.2.2 (popState ent.2.2 rest s)).pathTrace = []
        rw [expandState_pathTrace]
        exact hP rfl

/-- Claim C2, amended: for every successful search with `start ≠ end`,
the reconstructor walks the predecessor chain backward from `end` and
tags every cell it walks — the cells strictly between `start` and `end`
AND `start` itself — as Path: afterwards `start`'s tag is Path (white),
not Start; `end` is never walked and keeps its End tag. -/
theorem C2_amended (nbrs : Pos → List Pos) (tags0 : Pos → Color)
    (startP endP : Pos) (k : Nat) (st : AState)
    (hne : startP ≠ endP)
    (hrun : runFor nbrs tags0 startP endP k = .done true st) :
    st.tags startP = Color.white ∧
    st.tags endP = Color.yellow ∧
    startP ∈ st.pathTrace ∧
    (∀ p ∈ st.pathTrace, st.tags p = Color.white ∧ p ≠ endP) := by
  induction k with
  | zero => exact absurd hrun (by intro hh; exact LoopState.noConfusion hh)
  | succ k ih =>
    rw [runFor_succ] at hrun
    cases hls : runFor nbrs tags0 startP endP k with
    | done b s =>
      rw [hls, stepL_done] at hrun
      obtain ⟨rfl, rfl⟩ : b = true ∧ s = st := by
        cases hrun
        exact ⟨rfl, rfl⟩
      exact ih hls
    | hung s =>
      rw [hls] at hrun
      exact absurd hrun (by intro hh; exact LoopState.noConfusion hh)
    | running s =>
      rw [hls] at hrun
      have hsinv : SInv startP s := by
        have := SInv_run nbrs tags0 startP endP k
        rw [hls] at this
        exact this
      have hpt : s.pathTrace = [] := by
        have := pathTrace_running nbrs tags0 startP endP k
        rw [hls] at this
        exact this rfl
      replace hrun : stepRun nbrs startP endP s = .done true st := hrun
      unfold stepRun at hrun
      cases hpm : popMin s.openSet with
      | none =>
        rw [hpm] at hrun
        exact absurd hrun (by intro hh; cases hh)
      | some pr =>
        obtain ⟨ent, rest⟩ := pr
        rw [hpm] at hrun
        simp only at hrun
        obtain ⟨hmem, hrest, hmin⟩ := popMin_spec hpm
        by_cases hend : ent.2.2 = endP
        · rw [if_pos hend] at hrun
          have h0 : SInv startP (popState ent.2.2 rest s) :=
            SInv_popState hsinv ent.2.2 rest
              (fun e he => by rw [hrest] at he; exact List.mem_of_mem_erase he)
          have hlook : ((popState ent.2.2 rest s).cameFrom.lookup endP).isSome = true := by
            rcases hsinv.2.2.2.2 ent hmem with hh | hh
            · exact absurd (hh.symm.trans hend) hne
            · rw [← hend]
              exact hh
          obtain ⟨st', hfin, hgood⟩ :=
            finish_good startP endP hne (popState ent.2.2 rest s) h0 hlook hpt
          rw [hfin] at hrun
          obtain rfl : st' = st := by
            cases hrun
            rfl
          exact hgood
        · rw [if_neg hend] at hrun
          exact absurd hrun (by intro hh; cases hh)

/-- Claim C2 (as stated) is false: on the 2×2 wall-free grid with start
`(0,0)` painted Start and end `(0,1)` painted End, the search succeeds
and the reconstruction walk tags the start cell Path: afterwards
`(0,0)` carries the Path color white, not its Start color blue.  (The
walk advances to the predecessor before tagging, so it tags every cell
of the chain including `start`.) -/
theorem C2_counterexample :
    ∃ st, runSearch 2
        (fun p => if p = ((0, 0) : Pos) then Color.blue
          else if p = ((0, 1) : Pos) then Color.yellow else Color.default)
        (0, 0) (0, 1) 2 = .done true st ∧
      st.tags (0, 0) = Color.white ∧
      st.tags (0, 0) ≠ Color.blue ∧
      st.pathTrace = [(0, 0)] :=
  ⟨_, rfl, by decide, by decide, by decide⟩

/-- Witness for the amended C2 on the concrete 2×2 run. -/
theorem C2_amended_witness :
    (runSearch 2
        (fun p => if p = ((0, 0) : Pos) then Color.blue
          else if p = ((0, 1) : Pos) then Color.yellow else Color.default)
        (0, 0) (0, 1) 2).state.tags (0, 0) = Color.white ∧
    (runSearch 2
        (fun p => if p = ((0, 0) : Pos) then Color.blue
          else if p = ((0, 1) : Pos) then Color.yellow else Color.default)
        (0, 0) (0, 1) 2).state.tags (0, 1) = Color.yellow ∧
    (0, 0) ∈ (runSearch 2
        (fun p => if p = ((0, 0) : Pos) then Color.blue
          else if p = ((0, 1) : Pos) then Color.yellow else Color.default)
        (0, 0) (0, 1) 2).state.pathTrace ∧
    (∀ p ∈ (runSearch 2
        (fun p => if p = ((0, 0) : Pos) then Color.blue
          else if p = ((0, 1) : Pos) then Color.yellow else Color.default)
        (0, 0) (0, 1) 2).state.pathTrace,
      (runSearch 2
        (fun p => if p = ((0, 0) : Pos) then Color.blue
          else if p = ((0, 1) : Pos) then Color.yellow else Color.default)
        (0, 0) (0, 1) 2).state.tags p = Color.white ∧ p ≠ (0, 1)) :=
  C2_amended
    (updateNeighbors 2
      (fun p => if p = ((0, 0) : Pos) then Color.blue
        else if p = ((0, 1) : Pos) then Color.yellow else Color.default))
    (fun p => if p = ((0, 0) : Pos) then Color.blue
      else if p = ((0, 1) : Pos) then Color.yellow else Color.default)
    (0, 0) (0, 1) 2 _ (by decide) rfl

/-! ### C5: exhaustion on blocked grids -/

theorem relaxOne_cases (endP current : Pos) (s : AState) (nbr : Pos) :
    relaxOne endP current s nbr = s ∨
    (relaxOne endP current s nbr).g nbr < s.g nbr := by
  unfold relaxOne
  by_cases himp : s.g current + 1 < s.g nbr
  · rw [if_pos himp]
    right
    dsimp only
    split
    · show (if nbr = nbr then s.g current + 1 else s.g nbr) < s.g nbr
      rw [if_pos rfl]
      exact himp
    · show (if nbr = nbr then s.g current + 1 else s.g nbr) < s.g nbr
      rw [if_pos rfl]
      exact himp
  · rw [if_neg himp]
    exact Or.inl rfl

theorem foldl_relax_cases (endP current : Pos) (l : List Pos) :
    ∀ s : AState,
      l.foldl (relaxOne endP current) s = s ∨
      ∃ p₀ ∈ l, (l.foldl (relaxOne endP current) s).g p₀ < s.g p₀ := by
  induction l with
  | nil => intro s; exact Or.inl rfl
  | cons x xs ih =>
    intro s
    simp only [List.foldl_cons]
    rcases relaxOne_cases endP current s x with heq | hlt
    · rw [heq]
      rcases ih s with heq' | ⟨p₀, hp₀, hlt'⟩
      · exact Or.inl heq'
      · exact Or.inr ⟨p₀, List.mem_cons_of_mem _ hp₀, hlt'⟩
    · refine Or.inr ⟨x, List.mem_cons_self _ _, ?_⟩
      exact lt_of_le_of_lt (foldl_relax_g_le endP current xs _ x) hlt

theorem list_map_sum_le (L : List Pos) (f g : Pos → Nat)
    (hle : ∀ p ∈ L, f p ≤ g p) : (L.map f).sum ≤ (L.map g).sum := by
  induction L with
  | nil => exact le_refl _
  | cons x xs ih =>
    simp only [List.map_cons, List.sum_cons]
    exact Nat.add_le_add (hle x (List.mem_cons_self _ _))
      (ih (fun p hp => hle p (List.mem_cons_of_mem _ hp)))

theorem list_map_sum_lt (L : List Pos) (f g : Pos → Nat)
    (hle : ∀ p ∈ L, f p ≤ g p) (p₀ : Pos) (hp₀ : p₀ ∈ L) (hlt : f p₀ < g p₀) :
    (L.map f).sum < (L.map g).sum := by
  induction L with
  | nil => simp at hp₀
  | cons x xs ih =>
    have hle' : ∀ p ∈ xs, f p ≤ g p := fun p hp => hle p (List.mem_cons_of_mem _ hp)
    have hsumle : (xs.map f).sum ≤ (xs.map g).sum := list_map_sum_le xs f g hle'
    rcases List.mem_cons.mp hp₀ with rfl | hp₀'
    · simp only [List.map_cons, List.sum_cons]
      exact Nat.add_lt_add_of_lt_of_le hlt hsumle
    · simp only [List.map_cons, List.sum_cons]
      exact Nat.add_lt_add_of_le_of_lt (hle x (List.mem_cons_self _ _)) (ih hle' hp₀')

/-- The queue-locality invariant: every queued cell lies in `L`. -/
def LInv (L : List Pos) (s : AState) : Prop :=
  ∀ ent ∈ s.openSet, ent.2.2 ∈ L

theorem relaxOne_LInv (endP current : Pos) (s : AState) (nbr : Pos)
    (h : LInv L s) (hnbr : nbr ∈ L) : LInv L (relaxOne endP current s nbr) := by
  unfold relaxOne
  by_cases himp : s.g current + 1 < s.g nbr
  · rw [if_pos himp]
    dsimp only
    split
    · exact h
    · intro ent hent
      rw [List.mem_append, List.mem_singleton] at hent
      rcases hent with hent | rfl
      · exact h ent hent
      · exact hnbr
  · rw [if_neg himp]
    exact h

theorem foldl_relax_LInv (endP current : Pos) (l : List Pos) :
    ∀ s : AState, LInv L s → (∀ x ∈ l, x ∈ L) →
      LInv L (l.foldl (relaxOne endP current) s) := by
  induction l with
  | nil => intro s h _; exact h
  | cons x xs ih =>
    intro s h hl
    exact ih _ (relaxOne_LInv endP current s x h (hl x (List.mem_cons_self _ _)))
      (fun y hy => hl y (List.mem_cons_of_mem _ hy))

theorem LInv_step (nbrs : Pos → List Pos) (L : List Pos) (startP endP : Pos)
    (hL : ∀ p ∈ L, ∀ q ∈ nbrs p, q ∈ L) (ls : LoopState)
    (h : LInv L ls.state) : LInv L (stepL nbrs startP endP ls).state := by
  cases ls with
  | done b s => exact h
  | hung s => exact h
  | running s =>
    show LInv L (stepRun nbrs startP endP s).state
    unfold stepRun
    cases hpm : popMin s.openSet with
    | none => exact h
    | some pr =>
      obtain ⟨ent, rest⟩ := pr
      obtain ⟨hmem, hrest, hmin⟩ := popMin_spec hpm
      have h0 : LInv L (popState ent.2.2 rest s) := by
        intro e he
        rw [show (popState ent.2.2 rest s).openSet = rest from rfl, hrest] at he
        exact h e (List.mem_of_mem_erase he)
      have hcur : ent.2.2 ∈ L := h ent hmem
      simp only
      by_cases hend : ent.2.2 = endP
      · rw [if_pos hend]
        unfold finishState
        cases hrc : reconstructPath ((popState ent.2.2 rest s).cameFrom.length + 1)
            (popState ent.2.2 rest s).cameFrom endP (popState ent.2.2 rest s).tags [] with
        | none => exact h0
        | some pr2 =>
          obtain ⟨tags', path⟩ := pr2
          exact h0
      · rw [if_neg hend]
        show LInv L (expandState nbrs startP endP ent.2.2 (popState ent.2.2 rest s))
        unfold expandState
        dsimp only
        have hfold := foldl_relax_LInv endP ent.2.2 (nbrs ent.2.2)
          (popState ent.2.2 rest s) h0 (hL ent.2.2 hcur)
        split
        · exact hfold
        · exact hfold

theorem untop0_le {a b : ℕ∞} (hab : a ≤ b) (hb : b ≠ ⊤) :
    a.untop' 0 ≤ b.untop' 0 := by
  lift b to ℕ using hb
  have ha : a ≠ ⊤ := ne_top_of_le_ne_top (by simp) hab
  lift a to ℕ using ha
  simpa using hab

theorem untop0_lt {a b : ℕ∞} (hab : a < b) (hb : b ≠ ⊤) :
    a.untop' 0 < b.untop' 0 := by
  lift b to ℕ using hb
  have ha : a ≠ ⊤ := ne_top_of_lt hab
  lift a to ℕ using ha
  simpa using hab

/-- The termination measure of the loop: the number of cells of `L`
whose g-score is still infinite, then the sum of the finite g-scores
over `L`, then the queue length — lexicographically. -/
def measureOf (L : List Pos) (s : AState) : ℕ ×ₗ ℕ ×ₗ ℕ :=
  toLex ((L.filter (fun p => decide (s.g p = ⊤))).length,
    toLex ((L.map (fun p => (s.g p).untop' 0)).sum, s.openSet.length))

theorem lex3_lt {a1 a2 b1 b2 c1 c2 : ℕ}
    (h : a1 < a2 ∨ (a1 = a2 ∧ (b1 < b2 ∨ (b1 = b2 ∧ c1 < c2)))) :
    (toLex (a1, toLex (b1, c1)) : ℕ ×ₗ ℕ ×ₗ ℕ) < toLex (a2, toLex (b2, c2)) := by
  rcases h with h | ⟨rfl, h⟩
  · exact Prod.Lex.left _ _ h
  · refine Prod.Lex.right _ ?_
    rcases h with h | ⟨rfl, h⟩
    · exact Prod.Lex.left _ _ h
    · exact Prod.Lex.right _ h

theorem measure_decreases (nbrs : Pos → List Pos) (L : List Pos)
    (startP endP : Pos) (hL : ∀ p ∈ L, ∀ q ∈ nbrs p, q ∈ L)
    (s s' : AState) (hLs : LInv L s)
    (hstep : stepRun nbrs startP endP s = .running s') :
    measureOf L s' < measureOf L s := by
  unfold stepRun at hstep
  cases hpm : popMin s.openSet with
  | none =>
    rw [hpm] at hstep
    exact absurd hstep (by intro hh; cases hh)
  | some pr =>
    obtain ⟨ent, rest⟩ := pr
    rw [hpm] at hstep
    simp only at hstep
    obtain ⟨hmem, hrest, hmin⟩ := popMin_spec hpm
    by_cases hend : ent.2.2 = endP
    · rw [if_pos hend] at hstep
      unfold finishState at hstep
      cases hrc : reconstructPath ((popState ent.2.2 rest s).cameFrom.length + 1)
          (popState ent.2.2 rest s).cameFrom endP (popState ent.2.2 rest s).tags [] with
      | none =>
        rw [hrc] at hstep
        exact absurd hstep (by intro hh; cases hh)
      | some pr2 =>
        obtain ⟨tags', path⟩ := pr2
        rw [hrc] at hstep
        exact absurd hstep (by intro hh; cases hh)
    · rw [if_neg hend] at hstep
      obtain rfl : expandState nbrs startP endP ent.2.2 (popState ent.2.2 rest s) = s' := by
        cases hstep
        rfl
      set s0 : AState := popState ent.2.2 rest s with hs0
      have hg0 : s0.g = s.g := rfl
      have hopen0 : s0.openSet = rest := rfl
      have hexp : ∀ t : AState,
          (expandState nbrs startP endP ent.2.2 s0).g = t.g →
          (expandState nbrs startP endP ent.2.2 s0).openSet = t.openSet →
          ((nbrs ent.2.2).foldl (relaxOne endP ent.2.2) s0).g = t.g ∧
          ((nbrs ent.2.2).foldl (relaxOne endP ent.2.2) s0).openSet = t.openSet := by
        intro t h1 h2
        unfold expandState at h1 h2
        dsimp only at h1 h2
        constructor
        · rcases Decidable.em (ent.2.2 ≠ startP) with hd | hd
          · rw [if_pos hd] at h1; exact h1
          · rw [if_neg hd] at h1; exact h1
        · rcases Decidable.em (ent.2.2 ≠ startP) with hd | hd
          · rw [if_pos hd] at h2; exact h2
          · rw [if_neg hd] at h2; exact h2
      obtain ⟨hgs, hopens⟩ := hexp _ rfl rfl
      have hgle : ∀ p, (expandState nbrs startP endP ent.2.2 s0).g p ≤ s.g p := by
        intro p
        rw [← hg0]
        rw [show (expandState nbrs startP endP ent.2.2 s0).g p =
            ((nbrs ent.2.2).foldl (relaxOne endP ent.2.2) s0).g p by rw [hgs]]
        exact foldl_relax_g_le endP ent.2.2 (nbrs ent.2.2) s0 p
      rcases foldl_relax_cases endP ent.2.2 (nbrs ent.2.2) s0 with heq | ⟨p₀, hp₀, hlt⟩
      · -- no relaxation: queue shrank by one, g unchanged
        have hgeq : (expandState nbrs startP endP ent.2.2 s0).g = s.g := by
          rw [← hgs, heq]
          exact hg0
        have hoeq : (expandState nbrs startP endP ent.2.2 s0).openSet = rest := by
          rw [← hopens, heq]
          exact hopen0
        unfold measureOf
        rw [hgeq, hoeq]
        refine lex3_lt (Or.inr ⟨rfl, Or.inr ⟨rfl, ?_⟩⟩)
        rw [hrest]
        have h2 := List.length_erase_of_mem hmem
        have h3 := List.length_pos.mpr (List.ne_nil_of_mem hmem)
        omega
      · -- some cell's g strictly decreased
        have hp₀L : p₀ ∈ L := hL ent.2.2 (hLs ent hmem) p₀ hp₀
        have hglt : (expandState nbrs startP endP ent.2.2 s0).g p₀ < s.g p₀ := by
          rw [← hg0]
          rw [show (expandState nbrs startP endP ent.2.2 s0).g p₀ =
              ((nbrs ent.2.2).foldl (relaxOne endP ent.2.2) s0).g p₀ by rw [hgs]]
          exact hlt
        set sE : AState := expandState nbrs startP endP ent.2.2 s0 with hsE
        unfold measureOf
        by_cases hinf : ∃ q ∈ L, s.g q = ⊤ ∧ sE.g q ≠ ⊤
        · obtain ⟨q, hqL, hqT, hq'⟩ := hinf
          refine lex3_lt (Or.inl ?_)
          refine filter_length_lt L _ _ ?_ q hqL ?_ ?_
          · intro a _ ha
            rw [decide_eq_true_iff] at ha ⊢
            exact top_le_iff.mp (ha ▸ hgle a)
          · rw [decide_eq_true_iff]
            exact hqT
          · rw [decide_eq_false_iff_not]
            exact hq'
        · push_neg at hinf
          have hfeq : L.filter (fun p => decide (sE.g p = ⊤)) =
              L.filter (fun p => decide (s.g p = ⊤)) := by
            apply List.filter_congr
            intro p hp
            rw [decide_eq_decide]
            constructor
            · intro hh
              exact top_le_iff.mp (hh ▸ hgle p)
            · intro hh
              exact hinf p hp hh
          refine lex3_lt (Or.inr ⟨by rw [hfeq], Or.inl ?_⟩)
          have hsT : s.g p₀ ≠ ⊤ := by
            intro hh
            exact absurd hglt (by rw [hinf p₀ hp₀L hh, hh]; exact lt_irrefl _)
          refine list_map_sum_lt L _ _ ?_ p₀ hp₀L (untop0_lt hglt hsT)
          intro p hp
          by_cases hpt : s.g p = ⊤
          · rw [hpt, hinf p hp hpt]
          · exact untop0_le (hgle p) hpt

/-- Reachability in the (directed) neighbor graph: `b` is reachable
from `a` by repeatedly stepping to a listed neighbor. -/
def Reach (nbrs : Pos → List Pos) (a b : Pos) : Prop :=
  Relation.ReflTransGen (fun u v => v ∈ nbrs u) a b

/-- The reachability invariant: every cell with a finite g-score is
reachable from start, and every queued cell has a finite g-score. -/
def RInv (nbrs : Pos → List Pos) (startP : Pos) (s : AState) : Prop :=
  (∀ v, s.g v ≠ ⊤ → Reach nbrs startP v) ∧
  (∀ ent ∈ s.openSet, s.g ent.2.2 ≠ ⊤)

theorem relaxOne_RInv (nbrs : Pos → List Pos) (startP endP current : Pos)
    (s : AState) (nbr : Pos) (h : RInv nbrs startP s)
    (hreach : Reach nbrs startP current) (hnbr : nbr ∈ nbrs current) :
    RInv nbrs startP (relaxOne endP current s nbr) := by
  obtain ⟨hr, hq⟩ := h
  unfold relaxOne
  by_cases himp : s.g current + 1 < s.g nbr
  · rw [if_pos himp]
    have htmp : s.g current + 1 ≠ ⊤ := ne_top_of_lt himp
    have hr' : ∀ v, (if v = nbr then s.g current + 1 else s.g v) ≠ ⊤ →
        Reach nbrs startP v := by
      intro v hv
      by_cases hvn : v = nbr
      · rw [hvn]
        exact Relation.ReflTransGen.tail hreach hnbr
      · rw [if_neg hvn] at hv
        exact hr v hv
    have hq' : ∀ ent ∈ s.openSet,
        (if ent.2.2 = nbr then s.g current + 1 else s.g ent.2.2) ≠ ⊤ := by
      intro ent hent
      by_cases hvn : ent.2.2 = nbr
      · rw [if_pos hvn]
        exact htmp
      · rw [if_neg hvn]
        exact hq ent hent
    dsimp only
    split
    · exact ⟨hr', hq'⟩
    · refine ⟨hr', ?_⟩
      intro ent hent
      rw [List.mem_append, List.mem_singleton] at hent
      rcases hent with hent | rfl
      · exact hq' ent hent
      · show (if nbr = nbr then s.g current + 1 else s.g nbr) ≠ ⊤
        rw [if_pos rfl]
        exact htmp
  · rw [if_neg himp]
    exact ⟨hr, hq⟩

theorem foldl_relax_RInv (nbrs : Pos → List Pos) (startP endP current : Pos)
    (l : List Pos) :
    ∀ s : AState, RInv nbrs startP s → Reach nbrs startP current →
      (∀ x ∈ l, x ∈ nbrs current) →
      RInv nbrs startP (l.foldl (relaxOne endP current) s) := by
  induction l with
  | nil => intro s h _ _; exact h
  | cons x xs ih =>
    intro s h hreach hl
    exact ih _ (relaxOne_RInv nbrs startP endP current s x h hreach
        (hl x (List.mem_cons_self _ _)))
      hreach (fun y hy => hl y (List.mem_cons_of_mem _ hy))

/-- The loop state is still short of success: either running, or
returned `False`. -/
def NotFound (ls : LoopState) : Prop :=
  (∃ s, ls = .running s) ∨ (∃ s, ls = .done false s)

theorem blocked_invariant (nbrs : Pos → List Pos) (tags0 : Pos → Color)
    (startP endP : Pos) (hnr : ¬ Reach nbrs startP endP) (k : Nat) :
    RInv nbrs startP (runFor nbrs tags0 startP endP k).state ∧
    NotFound (runFor nbrs tags0 startP endP k) ∧
    (runFor nbrs tags0 startP endP k).state.pathTrace = [] := by
  refine runFor_invariantL nbrs tags0 startP endP
    (fun ls => RInv nbrs startP ls.state ∧ NotFound ls ∧ ls.state.pathTrace = [])
    ⟨⟨?_, ?_⟩, Or.inl ⟨_, rfl⟩, rfl⟩ ?_ k
  · intro v hv
    have hv' : (if v = startP then (0 : ℕ∞) else ⊤) ≠ ⊤ := hv
    by_cases hvs : v = startP
    · rw [hvs]
      exact Relation.ReflTransGen.refl
    · rw [if_neg hvs] at hv'
      exact absurd rfl hv'
  · intro ent hent
    have hent' : ent ∈ [((0 : ℕ∞), 0, startP)] := hent
    rw [List.mem_singleton] at hent'
    subst hent'
    show (if startP = startP then (0 : ℕ∞) else ⊤) ≠ ⊤
    rw [if_pos rfl]
    simp
  · intro ls ⟨hR, hNF, hpt⟩
    cases ls with
    | done b s =>
      rcases hNF with ⟨s', hs'⟩ | ⟨s', hs'⟩
      · exact absurd hs' (by intro hh; cases hh)
      · obtain ⟨rfl, rfl⟩ : false = b ∧ s' = s := by cases hs'; exact ⟨rfl, rfl⟩
        exact ⟨hR, Or.inr ⟨_, rfl⟩, hpt⟩
    | hung s =>
      rcases hNF with ⟨s', hs'⟩ | ⟨s', hs'⟩ <;>
        exact absurd hs' (by intro hh; cases hh)
    | running s =>
      show RInv nbrs startP (stepRun nbrs startP endP s).state ∧
        NotFound (stepRun nbrs startP endP s) ∧
        (stepRun nbrs startP endP s).state.pathTrace = []
      unfold stepRun
      cases hpm : popMin s.openSet with
      | none => exact ⟨hR, Or.inr ⟨_, rfl⟩, hpt⟩
      | some pr =>
        obtain ⟨ent, rest⟩ := pr
        obtain ⟨hmem, hrest, hmin⟩ := popMin_spec hpm
        have hgcur : s.g ent.2.2 ≠ ⊤ := hR.2 ent hmem
        have hreach : Reach nbrs startP ent.2.2 := hR.1 ent.2.2 hgcur
        simp only
        by_cases hend : ent.2.2 = endP
        · exact absurd (hend ▸ hreach) hnr
        · rw [if_neg hend]
          have h0 : RInv nbrs startP (popState ent.2.2 rest s) := by
            refine ⟨hR.1, ?_⟩
            intro e he
            rw [show (popState ent.2.2 rest s).openSet = rest from rfl, hrest] at he
            exact hR.2 e (List.mem_of_mem_erase he)
          refine ⟨?_, Or.inl ⟨_, rfl⟩, ?_⟩
          · show RInv nbrs startP (expandState nbrs startP endP ent.2.2 (popState ent.2.2 rest s))
            unfold expandState
            dsimp only
            have hfold := foldl_relax_RInv nbrs startP endP ent.2.2 (nbrs ent.2.2)
              (popState ent.2.2 rest s) h0 hreach (fun x hx => hx)
            split
            · exact ⟨hfold.1, hfold.2⟩
            · exact hfold
          · show (expandState nbrs startP endP ent.2.2 (popState ent.2.2 rest s)).pathTrace = []
            rw [expandState_pathTrace]
            exact hpt

theorem run_terminates (nbrs : Pos → List Pos) (L : List Pos) (tags0 : Pos → Color)
    (startP endP : Pos)
    (hL : ∀ p ∈ L, ∀ q ∈ nbrs p, q ∈ L) (hstart : startP ∈ L) :
    ∃ k, (runFor nbrs tags0 startP endP k).isRunning = false := by
  have hInv : ∀ k, LInv L (runFor nbrs tags0 startP endP k).state := by
    refine runFor_invariantL nbrs tags0 startP endP (fun ls => LInv L ls.state) ?_ ?_
    · intro ent hent
      have hent' : ent ∈ [((0 : ℕ∞), 0, startP)] := hent
      rw [List.mem_singleton] at hent'
      rw [hent']
      exact hstart
    · exact fun ls h => LInv_step nbrs L startP endP hL ls h
  have main : ∀ m : ℕ ×ₗ ℕ ×ₗ ℕ, ∀ k,
      measureOf L (runFor nbrs tags0 startP endP k).state = m →
      ∃ j, (runFor nbrs tags0 startP endP j).isRunning = false := by
    intro m
    refine WellFounded.induction wellFounded_lt
      (C := fun m => ∀ k, measureOf L (runFor nbrs tags0 startP endP k).state = m →
        ∃ j, (runFor nbrs tags0 startP endP j).isRunning = false) m ?_
    intro x ih k hmk
    cases hrun : runFor nbrs tags0 startP endP k with
    | done b s => exact ⟨k, by rw [hrun]; rfl⟩
    | hung s => exact ⟨k, by rw [hrun]; rfl⟩
    | running s =>
      cases hrun2 : runFor nbrs tags0 startP endP (k + 1) with
      | done b s2 => exact ⟨k + 1, by rw [hrun2]; rfl⟩
      | hung s2 => exact ⟨k + 1, by rw [hrun2]; rfl⟩
      | running s2 =>
        have hstep : stepRun nbrs startP endP s = .running s2 := by
          rw [runFor_succ, hrun] at hrun2
          exact hrun2
        have hLs : LInv L s := by
          have := hInv k
          rw [hrun] at this
          exact this
        have hdec := measure_decreases nbrs L startP endP hL s s2 hLs hstep
        have hx : measureOf L s = x := by
          rw [hrun] at hmk
          exact hmk
        exact ih (measureOf L s2) (hx ▸ hdec) (k + 1) (by rw [hrun2]; rfl)
  exact main _ 0 rfl

theorem mem_gridJoin (n : Nat) (p : Pos) :
    p ∈ (makeGrid n).join ↔ p.1 < n ∧ p.2 < n := by
  unfold makeGrid
  rw [List.mem_join]
  constructor
  · rintro ⟨l, hl, hpl⟩
    rw [List.mem_map] at hl
    obtain ⟨i, hi, rfl⟩ := hl
    rw [List.mem_range] at hi
    rw [List.mem_map] at hpl
    obtain ⟨j, hj, rfl⟩ := hpl
    rw [List.mem_range] at hj
    exact ⟨hi, hj⟩
  · rintro ⟨h1, h2⟩
    refine ⟨(List.range n).map (fun j => (p.1, j)), ?_, ?_⟩
    · rw [List.mem_map]
      exact ⟨p.1, List.mem_range.mpr h1, rfl⟩
    · rw [List.mem_map]
      refine ⟨p.2, List.mem_range.mpr h2, ?_⟩
      cases p
      rfl

theorem mem_if_singleton {c : Prop} [Decidable c] {x q : Pos}
    (h : q ∈ (if c then [x] else [])) : c ∧ q = x := by
  by_cases hc : c
  · rw [if_pos hc] at h
    exact ⟨hc, List.mem_singleton.mp h⟩
  · rw [if_neg hc] at h
    simp at h

theorem updateNeighbors_closure (n : Nat) (tags : Pos → Color) :
    ∀ p ∈ (makeGrid n).join, ∀ q ∈ updateNeighbors n tags p,
      q ∈ (makeGrid n).join := by
  intro p hp q hq
  rw [mem_gridJoin] at hp ⊢
  unfold updateNeighbors at hq
  rw [List.mem_append, List.mem_append, List.mem_append] at hq
  rcases hq with ((h | h) | h) | h
  · obtain ⟨⟨hb, _⟩, rfl⟩ := mem_if_singleton h
    exact ⟨by omega, hp.2⟩
  · obtain ⟨⟨hb, _⟩, rfl⟩ := mem_if_singleton h
    exact ⟨by omega, hp.2⟩
  · obtain ⟨⟨hb, _⟩, rfl⟩ := mem_if_singleton h
    exact ⟨hp.1, by omega⟩
  · obtain ⟨⟨hb, _⟩, rfl⟩ := mem_if_singleton h
    exact ⟨hp.1, by omega⟩

/-- Claim C5: on every `n × n` grid whose painted Walls (with neighbors
recomputed from them) leave `end` unreachable from the in-bounds
`start`, the search terminates by returning `False` — a normal return
value, never the hung state and never success — and no cell is ever
passed to `make_path` at any point of the run. -/
theorem C5_blocked (n : Nat) (tags0 : Pos → Color) (startP endP : Pos)
    (hsb : startP.1 < n ∧ startP.2 < n)
    (hnr : ¬ Reach (updateNeighbors n tags0) startP endP) :
    (∃ k st, runSearch n tags0 startP endP k = .done false st) ∧
    (∀ k, (runSearch n tags0 startP endP k).state.pathTrace = []) ∧
    (∀ k st, runSearch n tags0 startP endP k ≠ .done true st) ∧
    (∀ k st, runSearch n tags0 startP endP k ≠ .hung st) := by
  have hbi := blocked_invariant (updateNeighbors n tags0) tags0 startP endP hnr
  refine ⟨?_, fun k => (hbi k).2.2, ?_, ?_⟩
  · obtain ⟨k, hk⟩ := run_terminates (updateNeighbors n tags0) ((makeGrid n).join)
      tags0 startP endP (updateNeighbors_closure n tags0)
      ((mem_gridJoin n startP).mpr hsb)
    rcases (hbi k).2.1 with ⟨s, hs⟩ | ⟨s, hs⟩
    · rw [hs] at hk
      exact absurd hk (by intro hh; cases hh)
    · exact ⟨k, s, hs⟩
  · intro k st hk
    have hk' : runFor (updateNeighbors n tags0) tags0 startP endP k = .done true st := hk
    rcases (hbi k).2.1 with ⟨s, hs⟩ | ⟨s, hs⟩ <;> rw [hs] at hk' <;> cases hk'
  · intro k st hk
    have hk' : runFor (updateNeighbors n tags0) tags0 startP endP k = .hung st := hk
    rcases (hbi k).2.1 with ⟨s, hs⟩ | ⟨s, hs⟩ <;> rw [hs] at hk' <;> cases hk'

theorem reach_closed (nbrs : Pos → List Pos) (S : List Pos) (a b : Pos)
    (hclosed : ∀ p ∈ S, ∀ q ∈ nbrs p, q ∈ S) (ha : a ∈ S)
    (hr : Reach nbrs a b) : b ∈ S := by
  induction hr with
  | refl => exact ha
  | tail h₁ h₂ ih => exact hclosed _ ih _ h₂

/-- Witness for C5: the 3×3 grid whose middle row is all Walls, with
start `(0,1)` and end `(2,1)` — the spec's own blocked scenario. -/
theorem C5_blocked_witness :
    (∃ k st, runSearch 3
        (fun p => if p.1 = 1 then Color.black
          else if p = ((0, 1) : Pos) then Color.blue
          else if p = ((2, 1) : Pos) then Color.yellow else Color.default)
        (0, 1) (2, 1) k = .done false st) ∧
    (∀ k, (runSearch 3
        (fun p => if p.1 = 1 then Color.black
          else if p = ((0, 1) : Pos) then Color.blue
          else if p = ((2, 1) : Pos) then Color.yellow else Color.default)
        (0, 1) (2, 1) k).state.pathTrace = []) ∧
    (∀ k st, runSearch 3
        (fun p => if p.1 = 1 then Color.black
          else if p = ((0, 1) : Pos) then Color.blue
          else if p = ((2, 1) : Pos) then Color.yellow else Color.default)
        (0, 1) (2, 1) k ≠ .done true st) ∧
    (∀ k st, runSearch 3
        (fun p => if p.1 = 1 then Color.black
          else if p = ((0, 1) : Pos) then Color.blue
          else if p = ((2, 1) : Pos) then Color.yellow else Color.default)
        (0, 1) (2, 1) k ≠ .hung st) :=
  C5_blocked 3
    (fun p => if p.1 = 1 then Color.black
      else if p = ((0, 1) : Pos) then Color.blue
      else if p = ((2, 1) : Pos) then Color.yellow else Color.default)
    (0, 1) (2, 1) (by decide)
    (fun hr =>
      absurd
        (reach_closed
          (updateNeighbors 3
            (fun p => if p.1 = 1 then Color.black
              else if p = ((0, 1) : Pos) then Color.blue
              else if p = ((2, 1) : Pos) then Color.yellow else Color.default))
          [(0, 0), (0, 1), (0, 2)] (0, 1) (2, 1) (by decide) (by decide) hr)
        (by decide))

/-! ### C1: geometry of the Manhattan metric on the wall-free grid -/

theorem heuristic_self (v : Pos) : heuristic v v = 0 := by
  unfold heuristic
  omega

theorem heuristic_comm (a b : Pos) : heuristic a b = heuristic b a := by
  unfold heuristic
  omega

theorem heuristic_triangle (a b c : Pos) :
    heuristic a c ≤ heuristic a b + heuristic b c := by
  unfold heuristic
  omega

theorem heuristic_eq_zero {s v : Pos} (h : heuristic s v = 0) : s = v := by
  unfold heuristic at h
  obtain ⟨s1, s2⟩ := s
  obtain ⟨v1, v2⟩ := v
  simp only [Prod.mk.injEq]
  simp only at h
  omega

/-- A cell on some shortest start-end lattice path. -/
def corridor (startP endP v : Pos) : Prop :=
  heuristic startP v + heuristic v endP = heuristic startP endP

instance (startP endP v : Pos) : Decidable (corridor startP endP v) := by
  unfold corridor
  infer_instance

theorem corridor_start (startP endP : Pos) : corridor startP endP startP := by
  unfold corridor
  rw [heuristic_self]
  exact Nat.zero_add _

theorem corridor_end (startP endP : Pos) : corridor startP endP endP := by
  unfold corridor
  rw [heuristic_self]
  exact Nat.add_zero _

/-- Without walls, membership in an `update_neighbors` list means a unit
step (with the source bound checks). -/
theorem mem_nbrs_nowall {n : Nat} {tags : Pos → Color}
    (hw : ∀ p, tags p ≠ Color.black) {p q : Pos} :
    q ∈ updateNeighbors n tags p ↔
      ((q = (p.1 + 1, p.2) ∧ p.1 < n - 1) ∨ (q = (p.1 - 1, p.2) ∧ 0 < p.1) ∨
       (q = (p.1, p.2 + 1) ∧ p.2 < n - 1) ∨ (q = (p.1, p.2 - 1) ∧ 0 < p.2)) := by
  have hwall : ∀ r, isWall tags r = false := by
    intro r
    unfold isWall
    simpa using hw r
  unfold updateNeighbors
  rw [List.mem_append, List.mem_append, List.mem_append]
  constructor
  · rintro (((h | h) | h) | h) <;>
      [exact Or.inl ((mem_if_singleton h).symm.imp id (fun hh => hh.1));
       exact Or.inr (Or.inl ((mem_if_singleton h).symm.imp id (fun hh => hh.1)));
       exact Or.inr (Or.inr (Or.inl ((mem_if_singleton h).symm.imp id (fun hh => hh.1))));
       exact Or.inr (Or.inr (Or.inr ((mem_if_singleton h).symm.imp id (fun hh => hh.1))))]
  · rintro (⟨rfl, hb⟩ | ⟨rfl, hb⟩ | ⟨rfl, hb⟩ | ⟨rfl, hb⟩)
    · refine Or.inl (Or.inl (Or.inl ?_))
      rw [if_pos ⟨hb, by rw [hwall]; simp⟩]
      exact List.mem_singleton.mpr rfl
    · refine Or.inl (Or.inl (Or.inr ?_))
      rw [if_pos ⟨hb, by rw [hwall]; simp⟩]
      exact List.mem_singleton.mpr rfl
    · refine Or.inl (Or.inr ?_)
      rw [if_pos ⟨hb, by rw [hwall]; simp⟩]
      exact List.mem_singleton.mpr rfl
    · refine Or.inr ?_
      rw [if_pos ⟨hb, by rw [hwall]; simp⟩]
      exact List.mem_singleton.mpr rfl

theorem nbrs_dist_one {n : Nat} {tags : Pos → Color}
    (hw : ∀ p, tags p ≠ Color.black) {p q : Pos}
    (h : q ∈ updateNeighbors n tags p) : heuristic p q = 1 := by
  rw [mem_nbrs_nowall hw] at h
  unfold heuristic
  rcases h with ⟨rfl, hb⟩ | ⟨rfl, hb⟩ | ⟨rfl, hb⟩ | ⟨rfl, hb⟩ <;>
    simp only <;> omega

theorem nbrs_parity {n : Nat} {tags : Pos → Color}
    (hw : ∀ p, tags p ≠ Color.black) {s p q : Pos}
    (h : q ∈ updateNeighbors n tags p) : heuristic s q ≠ heuristic s p := by
  rw [mem_nbrs_nowall hw] at h
  unfold heuristic
  rcases h with ⟨rfl, hb⟩ | ⟨rfl, hb⟩ | ⟨rfl, hb⟩ | ⟨rfl, hb⟩ <;>
    simp only <;> omega

theorem nbrs_dist_le {n : Nat} {tags : Pos → Color}
    (hw : ∀ p, tags p ≠ Color.black) {s p q : Pos}
    (h : q ∈ updateNeighbors n tags p) :
    heuristic s q ≤ heuristic s p + 1 ∧ heuristic s p ≤ heuristic s q + 1 := by
  have h1 := nbrs_dist_one hw h
  constructor
  · have := heuristic_triangle s p q
    omega
  · have := heuristic_triangle s q p
    rw [heuristic_comm q p, h1] at this
    omega

theorem corridor_in_bounds {n : Nat} {startP endP v : Pos}
    (hs : startP.1 < n ∧ startP.2 < n) (he : endP.1 < n ∧ endP.2 < n)
    (hc : corridor startP endP v) : v.1 < n ∧ v.2 < n := by
  unfold corridor heuristic at hc
  obtain ⟨s1, s2⟩ := startP
  obtain ⟨e1, e2⟩ := endP
  obtain ⟨v1, v2⟩ := v
  simp only at hc hs he ⊢
  omega

/-- Every corridor cell other than start has a corridor predecessor one
step closer to start whose neighbor list (wall-free) contains it. -/
theorem corridor_pred {n : Nat} {tags : Pos → Color}
    (hw : ∀ p, tags p ≠ Color.black) {startP endP v : Pos}
    (hs : startP.1 < n ∧ startP.2 < n) (he : endP.1 < n ∧ endP.2 < n)
    (hc : corridor startP endP v) (hv : v ≠ startP) :
    ∃ u : Pos, corridor startP endP u ∧
      heuristic startP u + 1 = heuristic startP v ∧
      v ∈ updateNeighbors n tags u := by
  have hvb := corridor_in_bounds hs he hc
  obtain ⟨v1, v2⟩ := v
  obtain ⟨s1, s2⟩ := startP
  obtain ⟨e1, e2⟩ := endP
  unfold corridor heuristic at hc
  dsimp only at hc hs he hvb
  have hvne : ¬ (v1 = s1 ∧ v2 = s2) := by
    intro ⟨ha, hb⟩
    exact hv (by rw [ha, hb])
  by_cases h1 : v1 < s1
  · refine ⟨(v1 + 1, v2), ?_, ?_, ?_⟩
    · unfold corridor heuristic
      dsimp only
      omega
    · unfold heuristic
      dsimp only
      omega
    · rw [mem_nbrs_nowall hw]
      refine Or.inr (Or.inl ⟨?_, ?_⟩)
      · dsimp only
        rw [Prod.mk.injEq]
        omega
      · dsimp only
        omega
  · by_cases h2 : s1 < v1
    · refine ⟨(v1 - 1, v2), ?_, ?_, ?_⟩
      · unfold corridor heuristic
        dsimp only
        omega
      · unfold heuristic
        dsimp only
        omega
      · rw [mem_nbrs_nowall hw]
        refine Or.inl ⟨?_, ?_⟩
        · dsimp only
          rw [Prod.mk.injEq]
          omega
        · dsimp only
          omega
    · by_cases h3 : v2 < s2
      · refine ⟨(v1, v2 + 1), ?_, ?_, ?_⟩
        · unfold corridor heuristic
          dsimp only
          omega
        · unfold heuristic
          dsimp only
          omega
        · rw [mem_nbrs_nowall hw]
          refine Or.inr (Or.inr (Or.inr ⟨?_, ?_⟩))
          · dsimp only
            rw [Prod.mk.injEq]
            omega
          · dsimp only
            omega
      · by_cases h4 : s2 < v2
        · refine ⟨(v1, v2 - 1), ?_, ?_, ?_⟩
          · unfold corridor heuristic
            dsimp only
            omega
          · unfold heuristic
            dsimp only
            omega
          · rw [mem_nbrs_nowall hw]
            refine Or.inr (Or.inr (Or.inl ⟨?_, ?_⟩))
            · dsimp only
              rw [Prod.mk.injEq]
              omega
            · dsimp only
              omega
        · exact absurd ⟨by omega, by omega⟩ hvne

theorem chain'_to_getLast {R : Pos → Pos → Prop} :
    ∀ (l : List Pos) (hl : l ≠ []) (x : Pos), List.Chain' R (x :: l) →
      ∃ a, R a (l.getLast hl) := by
  intro l
  induction l with
  | nil => intro hl; exact absurd rfl hl
  | cons y ys ih =>
    intro _ x hch
    rw [List.chain'_cons] at hch
    by_cases hys : ys = []
    · subst hys
      exact ⟨x, hch.1⟩
    · obtain ⟨a, ha⟩ := ih hys y hch.2
      refine ⟨a, ?_⟩
      rw [List.getLast_cons hys]
      exact ha

theorem chain_exact_length (cf : List (Pos × Pos)) (g : Pos → ℕ∞)
    (hexact : ∀ pr ∈ cf, g pr.1 = g pr.2 + 1) :
    ∀ (chain : List Pos) (cur : Pos),
      List.Chain' (fun a b => cf.lookup a = some b) (cur :: chain) →
      g cur = g ((cur :: chain).getLast (by simp)) + (chain.length : ℕ∞) := by
  intro chain
  induction chain with
  | nil =>
    intro cur _
    simp
  | cons nxt rest ih =>
    intro cur hch
    rw [List.chain'_cons] at hch
    have hmem : (cur, nxt) ∈ cf := lookup_mem hch.1
    have h1 : g cur = g nxt + 1 := hexact (cur, nxt) hmem
    have h2 := ih nxt hch.2
    rw [List.getLast_cons (by simp : (nxt :: rest) ≠ [])]
    rw [h1, h2, List.length_cons]
    push_cast
    ring

/-- The main wall-free run invariant: every popped cell is a corridor
cell with optimal g, pops advance corridor layers completely and in
order, queue entries carry `f = g + h` with finite g, f-score-`D`
entries are FIFO by layer, discovered corridor cells not yet popped sit
in the queue with f-score `D`, g-scores are bounded below by the true
distance and take only the values `d v` or `d v + 2`, every neighbor of
a popped cell has been discovered with a small g, and the predecessor
map steps g down by exactly one towards popped cells. -/
structure RunInv (nbrs : Pos → List Pos) (startP endP : Pos) (s : AState) : Prop where
  pops_corridor : ∀ u ∈ s.popTrace,
    corridor startP endP u ∧ s.g u = (heuristic startP u : ℕ∞)
  pops_complete : ∀ u ∈ s.popTrace, ∀ v, corridor startP endP v →
    heuristic startP v < heuristic startP u → v ∈ s.popTrace
  entries_g : ∀ e ∈ s.openSet, s.g e.2.2 ≠ ⊤
  entries_f : ∀ e ∈ s.openSet, e.1 = s.g e.2.2 + (heuristic e.2.2 endP : ℕ∞)
  entries_cnt : ∀ e ∈ s.openSet, e.2.1 ≤ s.count
  entries_fifo : ∀ e1 ∈ s.openSet, ∀ e2 ∈ s.openSet,
    e1.1 = (heuristic startP endP : ℕ∞) → e2.1 = (heuristic startP endP : ℕ∞) →
    heuristic startP e1.2.2 < heuristic startP e2.2.2 → e1.2.1 < e2.2.1
  pops_le_entries : ∀ u ∈ s.popTrace, ∀ e ∈ s.openSet,
    e.1 = (heuristic startP endP : ℕ∞) → heuristic startP u ≤ heuristic startP e.2.2
  last_pop_bound : ∀ u, s.popTrace.getLast? = some u → ∀ e ∈ s.openSet,
    e.1 = (heuristic startP endP : ℕ∞) → heuristic startP e.2.2 ≤ heuristic startP u + 1
  disc_corridor : ∀ v, corridor startP endP v → s.g v ≠ ⊤ →
    v ∈ s.popTrace ∨ ∃ c, ((heuristic startP endP : ℕ∞), c, v) ∈ s.openSet
  g_lower : ∀ v, (heuristic startP v : ℕ∞) ≤ s.g v
  g_values : ∀ v, s.g v = ⊤ ∨ s.g v = (heuristic startP v : ℕ∞) ∨
    (s.g v = ((heuristic startP v + 2 : ℕ) : ℕ∞) ∧ ¬ corridor startP endP v)
  subopt_far : ∀ w, s.g w = ((heuristic startP w + 2 : ℕ) : ℕ∞) →
    ∀ v, corridor startP endP v → v ∉ s.popTrace →
    heuristic startP w + 1 ≤ heuristic startP v
  popped_nbrs : ∀ u ∈ s.popTrace, ∀ w ∈ nbrs u,
    s.g w ≠ ⊤ ∧ s.g w ≤ ((heuristic startP u + 1 : ℕ) : ℕ∞)
  cf_exact : ∀ pr ∈ s.cameFrom, s.g pr.1 = s.g pr.2 + 1
  cf_popped : ∀ pr ∈ s.cameFrom, pr.2 ∈ s.popTrace
  start_popped : startP ∈ s.popTrace
  end_not_popped : endP ∉ s.popTrace
  queue_not_popped : ∀ e ∈ s.openSet, e.2.2 ∉ s.popTrace
  hash_iff : ∀ v, s.openSetHash v = true ↔ ∃ f c, (f, c, v) ∈ s.openSet
  queue_pos_distinct : List.Pairwise (fun e1 e2 : Entry => e1.2.2 ≠ e2.2.2) s.openSet

/-- The invariant holding right after a (non-end) corridor cell `cur`
has been popped, before its neighbors are relaxed. -/
structure MidInv (nbrs : Pos → List Pos) (startP endP cur : Pos) (s : AState) : Prop where
  pop_last : s.popTrace.getLast? = some cur
  cur_corridor : corridor startP endP cur
  cur_g : s.g cur = (heuristic startP cur : ℕ∞)
  cur_ne_end : cur ≠ endP
  pops_corridor : ∀ u ∈ s.popTrace,
    corridor startP endP u ∧ s.g u = (heuristic startP u : ℕ∞)
  pops_complete : ∀ u ∈ s.popTrace, ∀ v, corridor startP endP v →
    heuristic startP v < heuristic startP u → v ∈ s.popTrace
  pops_le_cur : ∀ u ∈ s.popTrace, heuristic startP u ≤ heuristic startP cur
  entries_g : ∀ e ∈ s.openSet, s.g e.2.2 ≠ ⊤
  entries_f : ∀ e ∈ s.openSet, e.1 = s.g e.2.2 + (heuristic e.2.2 endP : ℕ∞)
  entries_cnt : ∀ e ∈ s.openSet, e.2.1 ≤ s.count
  entries_fifo : ∀ e1 ∈ s.openSet, ∀ e2 ∈ s.openSet,
    e1.1 = (heuristic startP endP : ℕ∞) → e2.1 = (heuristic startP endP : ℕ∞) →
    heuristic startP e1.2.2 < heuristic startP e2.2.2 → e1.2.1 < e2.2.1
  pops_le_entries : ∀ u ∈ s.popTrace, ∀ e ∈ s.openSet,
    e.1 = (heuristic startP endP : ℕ∞) → heuristic startP u ≤ heuristic startP e.2.2
  entries_le_cur1 : ∀ e ∈ s.openSet, e.1 = (heuristic startP endP : ℕ∞) →
    heuristic startP e.2.2 ≤ heuristic startP cur + 1
  disc_corridor : ∀ v, corridor startP endP v → s.g v ≠ ⊤ →
    v ∈ s.popTrace ∨ ∃ c, ((heuristic startP endP : ℕ∞), c, v) ∈ s.openSet
  g_lower : ∀ v, (heuristic startP v : ℕ∞) ≤ s.g v
  g_values : ∀ v, s.g v = ⊤ ∨ s.g v = (heuristic startP v : ℕ∞) ∨
    (s.g v = ((heuristic startP v + 2 : ℕ) : ℕ∞) ∧ ¬ corridor startP endP v)
  subopt_far : ∀ w, s.g w = ((heuristic startP w + 2 : ℕ) : ℕ∞) →
    ∀ v, corridor startP endP v → v ∉ s.popTrace →
    heuristic startP w + 1 ≤ heuristic startP v
  subopt_cur : ∀ w, s.g w = ((heuristic startP w + 2 : ℕ) : ℕ∞) →
    heuristic startP w + 1 ≤ heuristic startP cur
  popped_nbrs_old : ∀ u ∈ s.popTrace, u ≠ cur → ∀ w ∈ nbrs u,
    s.g w ≠ ⊤ ∧ s.g w ≤ ((heuristic startP u + 1 : ℕ) : ℕ∞)
  cf_exact : ∀ pr ∈ s.cameFrom, s.g pr.1 = s.g pr.2 + 1
  cf_popped : ∀ pr ∈ s.cameFrom, pr.2 ∈ s.popTrace
  start_popped : startP ∈ s.popTrace
  end_not_popped : endP ∉ s.popTrace
  queue_not_popped : ∀ e ∈ s.openSet, e.2.2 ∉ s.popTrace
  hash_iff : ∀ v, s.openSetHash v = true ↔ ∃ f c, (f, c, v) ∈ s.openSet
  queue_pos_distinct : List.Pairwise (fun e1 e2 : Entry => e1.2.2 ≠ e2.2.2) s.openSet

theorem coe_ne_top (a : Nat) : (a : ℕ∞) ≠ ⊤ := WithTop.coe_ne_top

theorem coe_lt_coe {a b : Nat} : (a : ℕ∞) < (b : ℕ∞) ↔ a < b := by
  exact_mod_cast Iff.rfl

theorem coe_le_coe {a b : Nat} : (a : ℕ∞) ≤ (b : ℕ∞) ↔ a ≤ b := by
  exact_mod_cast Iff.rfl

theorem coe_inj {a b : Nat} : (a : ℕ∞) = (b : ℕ∞) ↔ a = b := by
  exact_mod_cast Iff.rfl

theorem coe_add_one (a : Nat) : (a : ℕ∞) + 1 = ((a + 1 : Nat) : ℕ∞) := by
  push_cast
  rfl

/-- While `end` has not been popped, the queue of a `RunInv` state holds
an entry with f-score exactly `heuristic start end`. -/
theorem wavefront {n : Nat} {tags0 : Pos → Color}
    (hw : ∀ p, tags0 p ≠ Color.black) {startP endP : Pos}
    (hs : startP.1 < n ∧ startP.2 < n) (he : endP.1 < n ∧ endP.2 < n)
    {s : AState} (inv : RunInv (updateNeighbors n tags0) startP endP s) :
    ∃ c w, ((heuristic startP endP : ℕ∞), c, w) ∈ s.openSet := by
  have main : ∀ m, ∀ v, corridor startP endP v → v ∉ s.popTrace →
      heuristic startP v = m →
      ∃ c w, ((heuristic startP endP : ℕ∞), c, w) ∈ s.openSet := by
    intro m
    induction m using Nat.strong_induction_on with
    | _ m ih =>
      intro v hcv hvp hm
      have hvs : v ≠ startP := fun h => hvp (h ▸ inv.start_popped)
      obtain ⟨u, hcu, hdu, hvnb⟩ := corridor_pred hw hs he hcv hvs
      by_cases hup : u ∈ s.popTrace
      · have hdisc := (inv.popped_nbrs u hup v hvnb).1
        rcases inv.disc_corridor v hcv hdisc with hmem | ⟨c, hc⟩
        · exact absurd hmem hvp
        · exact ⟨c, v, hc⟩
      · exact ih (heuristic startP u) (by omega) u hcu hup rfl
  exact main (heuristic startP endP) endP (corridor_end _ _) inv.end_not_popped rfl

/-- In a `RunInv` state, the entry `PriorityQueue.get` removes has
f-score exactly `D`, and its cell is a corridor cell with optimal g. -/
theorem popped_min_D {n : Nat} {tags0 : Pos → Color}
    (hw : ∀ p, tags0 p ≠ Color.black) {startP endP : Pos}
    (hs : startP.1 < n ∧ startP.2 < n) (he : endP.1 < n ∧ endP.2 < n)
    {s : AState} (inv : RunInv (updateNeighbors n tags0) startP endP s)
    {ent : Entry} {rest : List Entry}
    (hpm : popMin s.openSet = some (ent, rest)) :
    ent.1 = (heuristic startP endP : ℕ∞) ∧
    s.g ent.2.2 = (heuristic startP ent.2.2 : ℕ∞) ∧
    corridor startP endP ent.2.2 := by
  obtain ⟨hmem, hrest, hmin⟩ := popMin_spec hpm
  obtain ⟨c, w, hcw⟩ := wavefront hw hs he inv
  have hle : ent.1 ≤ (heuristic startP endP : ℕ∞) := by
    have := hmin _ hcw
    unfold entryLt at this
    push_neg at this
    exact this.1
  have hf := inv.entries_f ent hmem
  have hgfin := inv.entries_g ent hmem
  have hglow := inv.g_lower ent.2.2
  lift s.g ent.2.2 to Nat using hgfin with gv hgv
  have htri := heuristic_triangle startP ent.2.2 endP
  rw [hf] at hle
  rw [coe_le_coe] at hglow
  have hle' : gv + heuristic ent.2.2 endP ≤ heuristic startP endP := by
    rw [show ((gv : ℕ∞) + (heuristic ent.2.2 endP : ℕ∞)) =
        ((gv + heuristic ent.2.2 endP : ℕ) : ℕ∞) by push_cast; rfl] at hle
    rw [coe_le_coe] at hle
    exact hle
  have hgeq : gv = heuristic startP ent.2.2 := by omega
  have hcor : corridor startP endP ent.2.2 := by
    unfold corridor
    omega
  refine ⟨?_, ?_, hcor⟩
  · rw [hf]
    rw [show ((gv : ℕ∞) + (heuristic ent.2.2 endP : ℕ∞)) =
        ((gv + heuristic ent.2.2 endP : ℕ) : ℕ∞) by push_cast; rfl]
    rw [coe_inj]
    omega
  · rw [coe_inj]
    exact hgeq

theorem erase_pos_ne {l : List Entry} {ent : Entry}
    (hp : List.Pairwise (fun e1 e2 : Entry => e1.2.2 ≠ e2.2.2) l)
    (hm : ent ∈ l) : ∀ e ∈ l.erase ent, e.2.2 ≠ ent.2.2 := by
  induction l with
  | nil => simp at hm
  | cons a as ih =>
    rw [List.pairwise_cons] at hp
    have hment : a ≠ ent → ent ∈ as := by
      intro ha
      rcases List.mem_cons.mp hm with h | h
      · exact absurd h.symm ha
      · exact h
    by_cases ha : a = ent
    · subst ha
      rw [List.erase_cons_head]
      intro e he
      exact Ne.symm (hp.1 e he)
    · rw [List.erase_cons_tail (by simp [ha])]
      intro e he
      rcases List.mem_cons.mp he with rfl | he'
      · exact hp.1 ent (hment ha)
      · exact ih hp.2 (hment ha) e he'

/-- Popping the least entry of a `RunInv` state (when its cell is not
`end`) establishes the mid-iteration invariant at that cell. -/
theorem pop_establishes_mid {n : Nat} {tags0 : Pos → Color}
    (hw : ∀ p, tags0 p ≠ Color.black) {startP endP : Pos}
    (hs : startP.1 < n ∧ startP.2 < n) (he : endP.1 < n ∧ endP.2 < n)
    {s : AState} (inv : RunInv (updateNeighbors n tags0) startP endP s)
    {ent : Entry} {rest : List Entry}
    (hpm : popMin s.openSet = some (ent, rest)) (hnd : ent.2.2 ≠ endP) :
    MidInv (updateNeighbors n tags0) startP endP ent.2.2
      (popState ent.2.2 rest s) := by
  obtain ⟨hmem, hrestE, hmin⟩ := popMin_spec hpm
  obtain ⟨hfD, hgcur, hccur⟩ := popped_min_D hw hs he inv hpm
  subst hrestE
  have hsub : ∀ e ∈ s.openSet.erase ent, e ∈ s.openSet :=
    fun e h => List.mem_of_mem_erase h
  have hrne : ∀ e ∈ s.openSet.erase ent, e.2.2 ≠ ent.2.2 :=
    erase_pos_ne inv.queue_pos_distinct hmem
  have hcurnp : ent.2.2 ∉ s.popTrace := inv.queue_not_popped ent hmem
  have hmemPT : ∀ u : Pos, u ∈ s.popTrace ++ [ent.2.2] ↔
      u ∈ s.popTrace ∨ u = ent.2.2 := by
    intro u
    rw [List.mem_append, List.mem_singleton]
  have hcc : ∀ v, corridor startP endP v →
      heuristic startP v < heuristic startP ent.2.2 → v ∈ s.popTrace := by
    have main : ∀ m, ∀ v, corridor startP endP v → heuristic startP v = m →
        m < heuristic startP ent.2.2 → v ∈ s.popTrace := by
      intro m
      induction m using Nat.strong_induction_on with
      | _ m ih =>
        intro v hcv hm hlt
        by_cases hd : s.g v = ⊤
        · have hvs : v ≠ startP := by
            intro h
            rw [h, (inv.pops_corridor startP inv.start_popped).2] at hd
            exact coe_ne_top _ hd
          obtain ⟨u, hcu, hdu, hvnb⟩ := corridor_pred hw hs he hcv hvs
          have hu : u ∈ s.popTrace :=
            ih (heuristic startP u) (by omega) u hcu rfl (by omega)
          exact absurd hd (inv.popped_nbrs u hu v hvnb).1
        · rcases inv.disc_corridor v hcv hd with hmemp | ⟨c, hc⟩
          · exact hmemp
          · exfalso
            have hmin' := hmin _ hc
            unfold entryLt at hmin'
            push_neg at hmin'
            have hle : ent.2.1 ≤ c := by
              have h2 := hmin'.2 hfD.symm
              dsimp only at h2
              omega
            have hfifo := inv.entries_fifo _ hc ent hmem rfl hfD
              (by dsimp only; omega)
            dsimp only at hfifo
            omega
    exact fun v hcv hlt => main (heuristic startP v) v hcv rfl hlt
  have hlast := List.getLast?_eq_getLast_of_ne_nil
    (List.ne_nil_of_mem inv.start_popped)
  have hlastmem := List.getLast_mem (List.ne_nil_of_mem inv.start_popped)
  refine
    { pop_last := ?_
      cur_corridor := hccur
      cur_g := hgcur
      cur_ne_end := hnd
      pops_corridor := ?_
      pops_complete := ?_
      pops_le_cur := ?_
      entries_g := fun e h => inv.entries_g e (hsub e h)
      entries_f := fun e h => inv.entries_f e (hsub e h)
      entries_cnt := fun e h => inv.entries_cnt e (hsub e h)
      entries_fifo := fun e1 h1 e2 h2 =>
        inv.entries_fifo e1 (hsub e1 h1) e2 (hsub e2 h2)
      pops_le_entries := ?_
      entries_le_cur1 := ?_
      disc_corridor := ?_
      g_lower := inv.g_lower
      g_values := inv.g_values
      subopt_far := fun w hgw v hcv hvp =>
        inv.subopt_far w hgw v hcv (fun hm2 => hvp (List.mem_append_left _ hm2))
      subopt_cur := fun w hgw => inv.subopt_far w hgw _ hccur hcurnp
      popped_nbrs_old := ?_
      cf_exact := inv.cf_exact
      cf_popped := fun pr hpr => List.mem_append_left _ (inv.cf_popped pr hpr)
      start_popped := List.mem_append_left _ inv.start_popped
      end_not_popped := ?_
      queue_not_popped := ?_
      hash_iff := ?_
      queue_pos_distinct :=
        List.Pairwise.sublist (List.erase_sublist ent s.openSet)
          inv.queue_pos_distinct }
  · show (s.popTrace ++ [ent.2.2]).getLast? = some ent.2.2
    exact List.getLast?_concat _
  · intro u hu
    rcases (hmemPT u).mp hu with h | h
    · exact inv.pops_corridor u h
    · subst h
      exact ⟨hccur, hgcur⟩
  · intro u hu v hcv hlt
    rcases (hmemPT u).mp hu with h | h
    · exact List.mem_append_left _ (inv.pops_complete u h v hcv hlt)
    · subst h
      exact List.mem_append_left _ (hcc v hcv hlt)
  · intro u hu
    rcases (hmemPT u).mp hu with h | h
    · exact inv.pops_le_entries u h ent hmem hfD
    · subst h
      exact le_refl _
  · intro u hu e hme hfe
    rcases (hmemPT u).mp hu with h | h
    · exact inv.pops_le_entries u h e (hsub e hme) hfe
    · subst h
      by_contra hcon
      push_neg at hcon
      have hfifo := inv.entries_fifo e (hsub e hme) ent hmem hfe hfD hcon
      have hmin' := hmin e (hsub e hme)
      unfold entryLt at hmin'
      push_neg at hmin'
      have := hmin'.2 (by rw [hfe, hfD])
      omega
  · intro e hme hfe
    have h1 := inv.last_pop_bound _ hlast e (hsub e hme) hfe
    have h2 := inv.pops_le_entries _ hlastmem ent hmem hfD
    omega
  · intro v hcv hgv
    by_cases hvc : v = ent.2.2
    · exact Or.inl (List.mem_append_right _ (by rw [hvc]; exact List.mem_singleton.mpr rfl))
    · rcases inv.disc_corridor v hcv hgv with h | ⟨c, hc⟩
      · exact Or.inl (List.mem_append_left _ h)
      · refine Or.inr ⟨c, ?_⟩
        refine (List.mem_erase_of_ne ?_).mpr hc
        intro h
        exact hvc (congrArg (fun x => x.2.2) h)
  · intro u hu hune w hwnb
    rcases (hmemPT u).mp hu with h | h
    · exact inv.popped_nbrs u h w hwnb
    · exact absurd h hune
  · intro h
    rcases (hmemPT endP).mp h with h1 | h1
    · exact inv.end_not_popped h1
    · exact hnd h1.symm
  · intro e hme h
    rcases (hmemPT e.2.2).mp h with h1 | h1
    · exact inv.queue_not_popped e (hsub e hme) h1
    · exact hrne e hme h1
  · intro v
    show (if v = ent.2.2 then false else s.openSetHash v) = true ↔
      ∃ f c, (f, c, v) ∈ s.openSet.erase ent
    by_cases hvc : v = ent.2.2
    · rw [if_pos hvc]
      constructor
      · intro h
        exact absurd h (by simp)
      · rintro ⟨f, c, hmr⟩
        exact absurd hvc (hrne _ hmr)
    · rw [if_neg hvc]
      rw [inv.hash_iff v]
      constructor
      · rintro ⟨f, c, hcm⟩
        refine ⟨f, c, (List.mem_erase_of_ne ?_).mpr hcm⟩
        intro h
        exact hvc (congrArg (fun x => x.2.2) h)
      · rintro ⟨f, c, hcm⟩
        exact ⟨f, c, hsub _ hcm⟩

theorem relaxOne_eq_of_not_lt {endP current : Pos} {s : AState} {nbr : Pos}
    (h : ¬ s.g current + 1 < s.g nbr) : relaxOne endP current s nbr = s := by
  unfold relaxOne
  rw [if_neg h]

/-- The full effect of `relaxOne` when the tentative g improves and the
neighbor is not queued: predecessor, scores, queue, hash, Open tag and
push trace are all updated. -/
theorem relaxOne_eq_push {endP current : Pos} {s : AState} {nbr : Pos}
    (h : s.g current + 1 < s.g nbr) (hh : s.openSetHash nbr = false) :
    relaxOne endP current s nbr =
      { count := s.count + 1
        openSet := s.openSet ++
          [(s.g current + 1 + (heuristic nbr endP : ℕ∞), s.count + 1, nbr)]
        cameFrom := cfInsert s.cameFrom nbr current
        g := fun p => if p = nbr then s.g current + 1 else s.g p
        f := fun p => if p = nbr then s.g current + 1 + (heuristic nbr endP : ℕ∞)
          else s.f p
        openSetHash := fun p => if p = nbr then true else s.openSetHash p
        tags := fun p => if p = nbr then Color.cyan else s.tags p
        pushTrace := s.pushTrace ++
          [(s.g current + 1 + (heuristic nbr endP : ℕ∞), s.count + 1, nbr)]
        popTrace := s.popTrace
        pathTrace := s.pathTrace } := by
  unfold relaxOne
  rw [if_pos h]
  dsimp only
  rw [if_neg (by simp [hh])]
  simp

/-- Relaxing one wall-free neighbor of the popped cell preserves the
mid-iteration invariant, and afterwards that neighbor is discovered
with g-score at most one more than the popped cell's layer. -/
theorem relax_mid {n : Nat} {tags0 : Pos → Color}
    (hw : ∀ p, tags0 p ≠ Color.black) {startP endP cur : Pos}
    (hs : startP.1 < n ∧ startP.2 < n) (he : endP.1 < n ∧ endP.2 < n)
    {s : AState} (mid : MidInv (updateNeighbors n tags0) startP endP cur s)
    {w : Pos} (hwnb : w ∈ updateNeighbors n tags0 cur) :
    MidInv (updateNeighbors n tags0) startP endP cur (relaxOne endP cur s w) ∧
    (relaxOne endP cur s w).g w ≠ ⊤ ∧
    (relaxOne endP cur s w).g w ≤ ((heuristic startP cur + 1 : ℕ) : ℕ∞) := by
  have hcurpop : cur ∈ s.popTrace := List.mem_of_getLast?_eq_some mid.pop_last
  have hpar : heuristic startP w ≠ heuristic startP cur := nbrs_parity hw hwnb
  have hdle := nbrs_dist_le (s := startP) hw hwnb
  have hval : s.g cur + 1 = ((heuristic startP cur + 1 : ℕ) : ℕ∞) := by
    rw [mid.cur_g, coe_add_one]
  by_cases himp : s.g cur + 1 < s.g w
  · have hgwT : s.g w = ⊤ := by
      by_contra hgw
      rcases mid.g_values w with h | h | ⟨h, hnc⟩
      · exact hgw h
      · rw [hval, h, coe_lt_coe] at himp
        have := hdle.1
        omega
      · rw [hval, h, coe_lt_coe] at himp
        have := mid.subopt_cur w h
        omega
    have hhw : s.openSetHash w = false := by
      cases hbw : s.openSetHash w
      · rfl
      · obtain ⟨f, c, hfc⟩ := (mid.hash_iff w).mp hbw
        exact absurd hgwT (mid.entries_g _ hfc)
    have hwnp : w ∉ s.popTrace := by
      intro hwp
      rw [(mid.pops_corridor w hwp).2] at hgwT
      exact coe_ne_top _ hgwT
    have hcw : cur ≠ w := fun h => hwnp (h ▸ hcurpop)
    have hdcases : heuristic startP w = heuristic startP cur + 1 ∨
        heuristic startP w + 1 = heuristic startP cur := by
      have h1 := hdle.1
      have h2 := hdle.2
      omega
    have hncB : heuristic startP w + 1 = heuristic startP cur →
        ¬ corridor startP endP w := by
      intro hB hcor
      exact hwnp (mid.pops_complete cur hcurpop w hcor (by omega))
    have hfval : s.g cur + 1 + (heuristic w endP : ℕ∞) =
        ((heuristic startP cur + 1 + heuristic w endP : ℕ) : ℕ∞) := by
      rw [hval, ← Nat.cast_add]
    have hfDiff : s.g cur + 1 + (heuristic w endP : ℕ∞) =
        (heuristic startP endP : ℕ∞) ↔
        heuristic startP cur + 1 + heuristic w endP = heuristic startP endP := by
      rw [hfval, coe_inj]
    have hAcor : heuristic startP cur + 1 + heuristic w endP =
        heuristic startP endP →
        heuristic startP w = heuristic startP cur + 1 ∧ corridor startP endP w := by
      intro hfd
      rcases hdcases with hA | hB
      · exact ⟨hA, by unfold corridor; omega⟩
      · exfalso
        have hnc := hncB hB
        unfold corridor at hnc
        have htr := heuristic_triangle startP w endP
        omega
    have hposne : ∀ e ∈ s.openSet, e.2.2 ≠ w :=
      fun e hme hew => (hew ▸ mid.entries_g e hme) hgwT
    have hmemQ : ∀ e : Entry, e ∈ s.openSet ++
        [(s.g cur + 1 + (heuristic w endP : ℕ∞), s.count + 1, w)] ↔
        e ∈ s.openSet ∨
        e = (s.g cur + 1 + (heuristic w endP : ℕ∞), s.count + 1, w) := by
      intro e
      rw [List.mem_append, List.mem_singleton]
    have hcf2ne : ∀ pr : Pos × Pos, pr ∈ s.cameFrom → pr.1 ≠ w ∧ pr.2 ≠ w := by
      intro pr hpr
      have hp2 := (mid.pops_corridor pr.2 (mid.cf_popped pr hpr)).2
      have hp1 := mid.cf_exact pr hpr
      constructor
      · intro h1
        rw [h1, hp2, coe_add_one] at hp1
        exact coe_ne_top _ (hp1 ▸ hgwT)
      · intro h2
        rw [h2] at hp2
        exact coe_ne_top _ (hp2 ▸ hgwT)
    rw [relaxOne_eq_push himp hhw]
    refine ⟨?_, ?_, ?_⟩
    · refine
        { pop_last := mid.pop_last
          cur_corridor := mid.cur_corridor
          cur_g := ?_
          cur_ne_end := mid.cur_ne_end
          pops_corridor := ?_
          pops_complete := mid.pops_complete
          pops_le_cur := mid.pops_le_cur
          entries_g := ?_
          entries_f := ?_
          entries_cnt := ?_
          entries_fifo := ?_
          pops_le_entries := ?_
          entries_le_cur1 := ?_
          disc_corridor := ?_
          g_lower := ?_
          g_values := ?_
          subopt_far := ?_
          subopt_cur := ?_
          popped_nbrs_old := ?_
          cf_exact := ?_
          cf_popped := ?_
          start_popped := mid.start_popped
          end_not_popped := mid.end_not_popped
          queue_not_popped := ?_
          hash_iff := ?_
          queue_pos_distinct := ?_ }
      · dsimp only
        rw [if_neg hcw]
        exact mid.cur_g
      · intro u hu
        have hun : u ≠ w := fun h => hwnp (h ▸ hu)
        refine ⟨(mid.pops_corridor u hu).1, ?_⟩
        dsimp only
        rw [if_neg hun]
        exact (mid.pops_corridor u hu).2
      · intro e hme
        rcases (hmemQ e).mp hme with h | h
        · dsimp only
          rw [if_neg (hposne e h)]
          exact mid.entries_g e h
        · subst h
          dsimp only
          rw [if_pos rfl, hval]
          exact coe_ne_top _
      · intro e hme
        rcases (hmemQ e).mp hme with h | h
        · dsimp only
          rw [if_neg (hposne e h)]
          exact mid.entries_f e h
        · subst h
          dsimp only
          rw [if_pos rfl]
      · intro e hme
        rcases (hmemQ e).mp hme with h | h
        · exact Nat.le_succ_of_le (mid.entries_cnt e h)
        · subst h
          exact le_refl _
      · intro e1 h1 e2 h2 hf1 hf2 hlt
        rcases (hmemQ e1).mp h1 with h1' | h1' <;>
          rcases (hmemQ e2).mp h2 with h2' | h2'
        · exact mid.entries_fifo e1 h1' e2 h2' hf1 hf2 hlt
        · subst h2'
          exact Nat.lt_succ_of_le (mid.entries_cnt e1 h1')
        · subst h1'
          exfalso
          dsimp only at hf1 hlt
          have hA := (hAcor (hfDiff.mp hf1)).1
          have := mid.entries_le_cur1 e2 h2' hf2
          omega
        · subst h1'
          subst h2'
          exact absurd hlt (by omega)
      · intro u hu e hme hfe
        rcases (hmemQ e).mp hme with h | h
        · exact mid.pops_le_entries u hu e h hfe
        · subst h
          dsimp only at hfe ⊢
          have hA := (hAcor (hfDiff.mp hfe)).1
          have := mid.pops_le_cur u hu
          omega
      · intro e hme hfe
        rcases (hmemQ e).mp hme with h | h
        · exact mid.entries_le_cur1 e h hfe
        · subst h
          dsimp only at hfe ⊢
          have hA := (hAcor (hfDiff.mp hfe)).1
          omega
      · intro v hcv hgv
        by_cases hvw : v = w
        · subst hvw
          refine Or.inr ⟨s.count + 1, ?_⟩
          have hfd : s.g cur + 1 + (heuristic v endP : ℕ∞) =
              (heuristic startP endP : ℕ∞) := by
            rcases hdcases with hA | hB
            · rw [hfDiff]
              unfold corridor at hcv
              omega
            · exact absurd hcv (hncB hB)
          rw [← hfd]
          exact List.mem_append_right _ (List.mem_singleton.mpr rfl)
        · dsimp only at hgv
          rw [if_neg hvw] at hgv
          rcases mid.disc_corridor v hcv hgv with h | ⟨c, hc⟩
          · exact Or.inl h
          · exact Or.inr ⟨c, List.mem_append_left _ hc⟩
      · intro v
        dsimp only
        by_cases hvw : v = w
        · subst hvw
          rw [if_pos rfl, hval, coe_le_coe]
          exact hdle.1
        · rw [if_neg hvw]
          exact mid.g_lower v
      · intro v
        dsimp only
        by_cases hvw : v = w
        · subst hvw
          rw [if_pos rfl, hval]
          rcases hdcases with hA | hB
          · refine Or.inr (Or.inl ?_)
            rw [coe_inj]
            omega
          · refine Or.inr (Or.inr ⟨?_, hncB hB⟩)
            rw [coe_inj]
            omega
        · rw [if_neg hvw]
          exact mid.g_values v
      · intro x hgx v hcv hvp
        dsimp only at hgx
        by_cases hxw : x = w
        · subst hxw
          rw [if_pos rfl, hval, coe_inj] at hgx
          have hB : heuristic startP x + 1 = heuristic startP cur := by omega
          by_contra hcon
          push_neg at hcon
          exact hvp (mid.pops_complete cur hcurpop v hcv (by omega))
        · rw [if_neg hxw] at hgx
          exact mid.subopt_far x hgx v hcv hvp
      · intro x hgx
        dsimp only at hgx
        by_cases hxw : x = w
        · subst hxw
          rw [if_pos rfl, hval, coe_inj] at hgx
          omega
        · rw [if_neg hxw] at hgx
          exact mid.subopt_cur x hgx
      · intro u hu hune x hxnb
        have hold := mid.popped_nbrs_old u hu hune x hxnb
        have hxw : x ≠ w := by
          intro h
          exact (h ▸ hold.1) hgwT
        dsimp only
        rw [if_neg hxw]
        exact hold
      · intro pr hpr
        rcases cfInsert_mem hpr with h | ⟨h, hk⟩
        · subst h
          dsimp only
          rw [if_pos rfl, if_neg hcw]
        · have h2 := (hcf2ne pr h).2
          dsimp only
          rw [if_neg (hcf2ne pr h).1, if_neg h2]
          exact mid.cf_exact pr h
      · intro pr hpr
        rcases cfInsert_mem hpr with h | ⟨h, hk⟩
        · subst h
          exact hcurpop
        · exact mid.cf_popped pr h
      · intro e hme
        rcases (hmemQ e).mp hme with h | h
        · exact mid.queue_not_popped e h
        · subst h
          exact hwnp
      · intro v
        dsimp only
        by_cases hvw : v = w
        · subst hvw
          rw [if_pos rfl]
          constructor
          · intro _
            exact ⟨s.g cur + 1 + (heuristic v endP : ℕ∞), s.count + 1,
              List.mem_append_right _ (List.mem_singleton.mpr rfl)⟩
          · intro _
            rfl
        · rw [if_neg hvw]
          rw [mid.hash_iff v]
          constructor
          · rintro ⟨f, c, hfc⟩
            exact ⟨f, c, List.mem_append_left _ hfc⟩
          · rintro ⟨f, c, hfc⟩
            rcases (hmemQ (f, c, v)).mp hfc with h | h
            · exact ⟨f, c, h⟩
            · exfalso
              have : v = w := congrArg (fun x : Entry => x.2.2) h
              exact hvw this
      · dsimp only
        rw [List.pairwise_append]
        refine ⟨mid.queue_pos_distinct, List.pairwise_singleton _ _, ?_⟩
        intro e he e' he'
        rw [List.mem_singleton] at he'
        subst he'
        exact hposne e he
    · dsimp only
      rw [if_pos rfl, hval]
      exact coe_ne_top _
    · dsimp only
      rw [if_pos rfl, hval]
  · rw [relaxOne_eq_of_not_lt himp]
    have hle : s.g w ≤ s.g cur + 1 := not_lt.mp himp
    rw [hval] at hle
    refine ⟨mid, ?_, hle⟩
    intro hT
    rw [hT] at hle
    exact coe_ne_top _ (top_le_iff.mp hle)

/-- Folding `relaxOne` over any sublist of the popped cell's neighbor
list preserves the mid-iteration invariant and leaves every processed
neighbor discovered with a one-step g bound. -/
theorem foldl_relax_mid {n : Nat} {tags0 : Pos → Color}
    (hw : ∀ p, tags0 p ≠ Color.black) {startP endP cur : Pos}
    (hs : startP.1 < n ∧ startP.2 < n) (he : endP.1 < n ∧ endP.2 < n) :
    ∀ (l : List Pos), (∀ x ∈ l, x ∈ updateNeighbors n tags0 cur) →
    ∀ s : AState, MidInv (updateNeighbors n tags0) startP endP cur s →
    MidInv (updateNeighbors n tags0) startP endP cur
      (l.foldl (relaxOne endP cur) s) ∧
    ∀ x ∈ l, (l.foldl (relaxOne endP cur) s).g x ≠ ⊤ ∧
      (l.foldl (relaxOne endP cur) s).g x ≤
        ((heuristic startP cur + 1 : ℕ) : ℕ∞) := by
  intro l
  induction l with
  | nil =>
    intro _ s mid
    exact ⟨mid, fun x hx => absurd hx (List.not_mem_nil x)⟩
  | cons x xs ih =>
    intro hsub s mid
    have hxnb : x ∈ updateNeighbors n tags0 cur := hsub x (List.mem_cons_self _ _)
    obtain ⟨mid1, hne1, hle1⟩ := relax_mid hw hs he mid hxnb
    have hsub' : ∀ y ∈ xs, y ∈ updateNeighbors n tags0 cur :=
      fun y hy => hsub y (List.mem_cons_of_mem _ hy)
    obtain ⟨midF, hfacts⟩ := ih hsub' (relaxOne endP cur s x) mid1
    simp only [List.foldl_cons]
    refine ⟨midF, ?_⟩
    intro y hy
    rcases List.mem_cons.mp hy with rfl | hy'
    · have hled : (xs.foldl (relaxOne endP cur) (relaxOne endP cur s y)).g y ≤
          ((heuristic startP cur + 1 : ℕ) : ℕ∞) :=
        le_trans (foldl_relax_g_le endP cur xs _ y) hle1
      refine ⟨?_, hled⟩
      intro hT
      rw [hT] at hled
      exact coe_ne_top _ (top_le_iff.mp hled)
    · exact hfacts y hy'

theorem RunInv_tags (nbrs : Pos → List Pos) (startP endP : Pos) (s : AState)
    (t : Pos → Color) (h : RunInv nbrs startP endP s) :
    RunInv nbrs startP endP { s with tags := t } :=
  { pops_corridor := h.pops_corridor
    pops_complete := h.pops_complete
    entries_g := h.entries_g
    entries_f := h.entries_f
    entries_cnt := h.entries_cnt
    entries_fifo := h.entries_fifo
    pops_le_entries := h.pops_le_entries
    last_pop_bound := h.last_pop_bound
    disc_corridor := h.disc_corridor
    g_lower := h.g_lower
    g_values := h.g_values
    subopt_far := h.subopt_far
    popped_nbrs := h.popped_nbrs
    cf_exact := h.cf_exact
    cf_popped := h.cf_popped
    start_popped := h.start_popped
    end_not_popped := h.end_not_popped
    queue_not_popped := h.queue_not_popped
    hash_iff := h.hash_iff
    queue_pos_distinct := h.queue_pos_distinct }

/-- Once every neighbor of the popped cell is discovered with the
one-step g bound, the mid-iteration invariant recovers the full run
invariant. -/
theorem mid_to_run {nbrs : Pos → List Pos} {startP endP cur : Pos}
    {s : AState} (mid : MidInv nbrs startP endP cur s)
    (hfacts : ∀ x ∈ nbrs cur, s.g x ≠ ⊤ ∧
      s.g x ≤ ((heuristic startP cur + 1 : ℕ) : ℕ∞)) :
    RunInv nbrs startP endP s := by
  refine
    { pops_corridor := mid.pops_corridor
      pops_complete := mid.pops_complete
      entries_g := mid.entries_g
      entries_f := mid.entries_f
      entries_cnt := mid.entries_cnt
      entries_fifo := mid.entries_fifo
      pops_le_entries := mid.pops_le_entries
      last_pop_bound := ?_
      disc_corridor := mid.disc_corridor
      g_lower := mid.g_lower
      g_values := mid.g_values
      subopt_far := mid.subopt_far
      popped_nbrs := ?_
      cf_exact := mid.cf_exact
      cf_popped := mid.cf_popped
      start_popped := mid.start_popped
      end_not_popped := mid.end_not_popped
      queue_not_popped := mid.queue_not_popped
      hash_iff := mid.hash_iff
      queue_pos_distinct := mid.queue_pos_distinct }
  · intro u hu e hme hfe
    have h2 := mid.pop_last
    rw [hu] at h2
    have : u = cur := Option.some_injective _ h2
    subst this
    exact mid.entries_le_cur1 e hme hfe
  · intro u hu x hxnb
    by_cases huc : u = cur
    · subst huc
      exact hfacts x hxnb
    · exact mid.popped_nbrs_old u hu huc x hxnb

theorem expand_run {n : Nat} {tags0 : Pos → Color}
    (hw : ∀ p, tags0 p ≠ Color.black) {startP endP cur : Pos}
    (hs : startP.1 < n ∧ startP.2 < n) (he : endP.1 < n ∧ endP.2 < n)
    {s0 : AState} (mid : MidInv (updateNeighbors n tags0) startP endP cur s0) :
    RunInv (updateNeighbors n tags0) startP endP
      (expandState (updateNeighbors n tags0) startP endP cur s0) := by
  obtain ⟨midF, hfacts⟩ := foldl_relax_mid hw hs he (updateNeighbors n tags0 cur)
    (fun x hx => hx) s0 mid
  have hrun := mid_to_run midF hfacts
  unfold expandState
  dsimp only
  split
  · exact RunInv_tags _ _ _ _ _ hrun
  · exact hrun

/-- The success exit when `end` is popped with optimal g on a wall-free
grid: reconstruction terminates and tags exactly `heuristic start end`
cells Path. -/
theorem finish_c1 {startP endP : Pos} (hne : startP ≠ endP) {s0 : AState}
    (hsinv : SInv startP s0)
    (hex : ∀ pr ∈ s0.cameFrom, s0.g pr.1 = s0.g pr.2 + 1)
    (hgend : s0.g endP = (heuristic startP endP : ℕ∞))
    (hlook : (s0.cameFrom.lookup endP).isSome = true)
    (hpt : s0.pathTrace = []) :
    ∃ st, finishState endP s0 = .done true st ∧
      st.pathTrace.length = heuristic startP endP := by
  obtain ⟨hg0, hpairs, hstartl, hclose, _⟩ := hsinv
  obtain ⟨tags₁, chain, hres, hwhite, huntouch, hgb, hstartmem, hnone,
    hchain, hlastn⟩ :=
    reconstructPath_spec s0.cameFrom s0.g startP
      (fun pr hpr => (hpairs pr hpr).2) hclose
      ((s0.cameFrom.filter (fun pr => decide (s0.g pr.1 ≤ s0.g endP))).length)
      endP s0.tags [] (s0.cameFrom.length + 1)
      (le_refl _) (Nat.lt_succ_of_le (List.length_filter_le _ _))
  have hchne : chain ≠ [] := List.ne_nil_of_mem (hstartmem hlook)
  have hlen := chain_exact_length s0.cameFrom s0.g hex chain endP hchain
  rw [List.getLast_cons hchne] at hlen
  have hlast_start : chain.getLast hchne = startP := by
    obtain ⟨a, ha⟩ := chain'_to_getLast chain hchne endP hchain
    have hmem : (a, chain.getLast hchne) ∈ s0.cameFrom := lookup_mem ha
    rcases hclose (a, chain.getLast hchne) hmem with h | h
    · exact h
    · rw [hlastn hchne] at h
      exact absurd h (by simp)
  rw [hlast_start, hg0, zero_add, hgend] at hlen
  rw [coe_inj] at hlen
  unfold finishState
  rw [hres]
  refine ⟨_, rfl, ?_⟩
  show (s0.pathTrace ++ ([] ++ chain)).length = heuristic startP endP
  rw [hpt, List.nil_append, List.nil_append]
  exact hlen.symm

/-- Popping the initial entry (the start cell) establishes the
mid-iteration invariant at `start`. -/
theorem phase0_mid (n : Nat) (tags0 : Pos → Color) {startP endP : Pos}
    (hne : startP ≠ endP) :
    MidInv (updateNeighbors n tags0) startP endP startP
      (popState startP [] (initState tags0 startP endP)) := by
  have hgdef : ∀ v, (popState startP [] (initState tags0 startP endP)).g v =
      (if v = startP then (0 : ℕ∞) else ⊤) := fun v => rfl
  have hhash : ∀ v,
      (popState startP [] (initState tags0 startP endP)).openSetHash v =
      (if v = startP then false else decide (v = startP)) := fun v => rfl
  have hgs : (popState startP [] (initState tags0 startP endP)).g startP =
      ((heuristic startP startP : ℕ) : ℕ∞) := by
    rw [hgdef, if_pos rfl, heuristic_self]
    simp
  refine
    { pop_last := rfl
      cur_corridor := corridor_start _ _
      cur_g := hgs
      cur_ne_end := hne
      pops_corridor := ?_
      pops_complete := ?_
      pops_le_cur := ?_
      entries_g := fun e he => absurd he (List.not_mem_nil e)
      entries_f := fun e he => absurd he (List.not_mem_nil e)
      entries_cnt := fun e he => absurd he (List.not_mem_nil e)
      entries_fifo := fun e1 h1 => absurd h1 (List.not_mem_nil e1)
      pops_le_entries := fun u hu e hme => absurd hme (List.not_mem_nil e)
      entries_le_cur1 := fun e hme => absurd hme (List.not_mem_nil e)
      disc_corridor := ?_
      g_lower := ?_
      g_values := ?_
      subopt_far := ?_
      subopt_cur := ?_
      popped_nbrs_old := ?_
      cf_exact := fun pr hpr => absurd hpr (List.not_mem_nil pr)
      cf_popped := fun pr hpr => absurd hpr (List.not_mem_nil pr)
      start_popped := List.mem_singleton.mpr rfl
      end_not_popped := ?_
      queue_not_popped := fun e hme => absurd hme (List.not_mem_nil e)
      hash_iff := ?_
      queue_pos_distinct := List.Pairwise.nil }
  · intro u hu
    have : u = startP := List.mem_singleton.mp hu
    subst this
    exact ⟨corridor_start _ _, hgs⟩
  · intro u hu v hcv hlt
    have : u = startP := List.mem_singleton.mp hu
    subst this
    rw [heuristic_self] at hlt
    omega
  · intro u hu
    have : u = startP := List.mem_singleton.mp hu
    subst this
    exact le_refl _
  · intro v hcv hgv
    rw [hgdef] at hgv
    by_cases hv : v = startP
    · subst hv
      exact Or.inl (List.mem_singleton.mpr rfl)
    · rw [if_neg hv] at hgv
      exact absurd rfl hgv
  · intro v
    rw [hgdef]
    by_cases hv : v = startP
    · subst hv
      rw [if_pos rfl, heuristic_self]
      simp
    · rw [if_neg hv]
      exact le_top
  · intro v
    rw [hgdef]
    by_cases hv : v = startP
    · subst hv
      refine Or.inr (Or.inl ?_)
      rw [if_pos rfl, heuristic_self]
      simp
    · rw [if_neg hv]
      exact Or.inl rfl
  · intro x hgx
    rw [hgdef] at hgx
    by_cases hx : x = startP
    · subst hx
      rw [if_pos rfl, heuristic_self] at hgx
      simp at hgx
    · rw [if_neg hx] at hgx
      exact absurd hgx.symm (coe_ne_top _)
  · intro x hgx
    rw [hgdef] at hgx
    by_cases hx : x = startP
    · subst hx
      rw [if_pos rfl, heuristic_self] at hgx
      simp at hgx
    · rw [if_neg hx] at hgx
      exact absurd hgx.symm (coe_ne_top _)
  · intro u hu hune
    exact absurd (List.mem_singleton.mp hu) hune
  · intro h
    exact hne (List.mem_singleton.mp h).symm
  · intro v
    rw [hhash]
    constructor
    · intro h
      by_cases hv : v = startP
      · rw [if_pos hv] at h
        exact Bool.noConfusion h
      · rw [if_neg hv] at h
        exact absurd (of_decide_eq_true h) hv
    · rintro ⟨f, c, hm⟩
      exact absurd hm (List.not_mem_nil _)

/-- The loop-level picture of a wall-free run: the loop is either at its
initial state, running under the full run invariant with an empty path
trace, or it has returned `True` having tagged exactly
`heuristic start end` cells Path. -/
def C1Inv (n : Nat) (tags0 : Pos → Color) (startP endP : Pos)
    (ls : LoopState) : Prop :=
  ls = .running (initState tags0 startP endP) ∨
  (∃ s, ls = .running s ∧ RunInv (updateNeighbors n tags0) startP endP s ∧
    s.pathTrace = []) ∨
  (∃ s, ls = .done true s ∧ s.pathTrace.length = heuristic startP endP)

theorem C1Inv_step {n : Nat} {tags0 : Pos → Color}
    (hw : ∀ p, tags0 p ≠ Color.black) {startP endP : Pos}
    (hs : startP.1 < n ∧ startP.2 < n) (he : endP.1 < n ∧ endP.2 < n)
    (hne : startP ≠ endP) (ls : LoopState)
    (h : C1Inv n tags0 startP endP ls ∧ SInv startP ls.state) :
    C1Inv n tags0 startP endP (stepL (updateNeighbors n tags0) startP endP ls) ∧
    SInv startP (stepL (updateNeighbors n tags0) startP endP ls).state := by
  refine ⟨?_, SInv_step _ _ _ ls h.2⟩
  rcases h.1 with h1 | ⟨s, rfl, hrun, hpt⟩ | ⟨s, rfl, hlen⟩
  · subst h1
    have hpm : popMin [((0 : ℕ∞), 0, startP)] =
        some (((0 : ℕ∞), 0, startP), []) := by
      show popMin [((0 : ℕ∞), 0, startP)] = _
      unfold popMin
      rw [show minE [((0 : ℕ∞), 0, startP)] = some ((0 : ℕ∞), 0, startP) from rfl]
      dsimp only
      rw [List.erase_cons_head]
    have heq : stepL (updateNeighbors n tags0) startP endP
        (.running (initState tags0 startP endP)) =
        .running (expandState (updateNeighbors n tags0) startP endP startP
          (popState startP [] (initState tags0 startP endP))) := by
      show stepRun (updateNeighbors n tags0) startP endP
        (initState tags0 startP endP) = _
      unfold stepRun
      rw [show (initState tags0 startP endP).openSet =
        [((0 : ℕ∞), 0, startP)] from rfl, hpm]
      dsimp only
      rw [if_neg hne]
    rw [heq]
    refine Or.inr (Or.inl ⟨_, rfl, ?_, ?_⟩)
    · exact expand_run hw hs he (phase0_mid n tags0 hne)
    · rw [expandState_pathTrace]
      rfl
  · cases hpm : popMin s.openSet with
    | none =>
      exfalso
      obtain ⟨c, w, hcw⟩ := wavefront hw hs he hrun
      obtain ⟨m, hm⟩ := minE_isSome (List.ne_nil_of_mem hcw)
      unfold popMin at hpm
      rw [hm] at hpm
      exact Option.noConfusion hpm
    | some pr =>
      obtain ⟨ent, rest⟩ := pr
      obtain ⟨hmem, hrestE, hmin⟩ := popMin_spec hpm
      have hrest' : ∀ e ∈ rest, e ∈ s.openSet := by
        intro e hee
        rw [hrestE] at hee
        exact List.mem_of_mem_erase hee
      by_cases hend : ent.2.2 = endP
      · have hgend : s.g endP = (heuristic startP endP : ℕ∞) := by
          have h2 := (popped_min_D hw hs he hrun hpm).2.1
          rw [hend] at h2
          exact h2
        have hlook : (s.cameFrom.lookup endP).isSome = true := by
          rcases h.2.2.2.2.2 ent hmem with h3 | h3
          · rw [hend] at h3
            exact absurd h3.symm hne
          · rw [hend] at h3
            exact h3
        have hS : SInv startP s := h.2
        obtain ⟨st, hfin, hlenf⟩ :=
          finish_c1 hne (SInv_popState hS ent.2.2 rest hrest')
            hrun.cf_exact hgend hlook hpt
        have heq : stepL (updateNeighbors n tags0) startP endP (.running s) =
            finishState endP (popState ent.2.2 rest s) := by
          show stepRun (updateNeighbors n tags0) startP endP s = _
          unfold stepRun
          rw [hpm]
          dsimp only
          rw [if_pos hend]
        rw [heq, hfin]
        exact Or.inr (Or.inr ⟨st, rfl, hlenf⟩)
      · have hmid := pop_establishes_mid hw hs he hrun hpm hend
        have heq : stepL (updateNeighbors n tags0) startP endP (.running s) =
            .running (expandState (updateNeighbors n tags0) startP endP ent.2.2
              (popState ent.2.2 rest s)) := by
          show stepRun (updateNeighbors n tags0) startP endP s = _
          unfold stepRun
          rw [hpm]
          dsimp only
          rw [if_neg hend]
        rw [heq]
        refine Or.inr (Or.inl ⟨_, rfl, expand_run hw hs he hmid, ?_⟩)
        rw [expandState_pathTrace]
        exact hpt
  · exact Or.inr (Or.inr ⟨s, rfl, hlen⟩)

theorem C1Inv_run {n : Nat} {tags0 : Pos → Color}
    (hw : ∀ p, tags0 p ≠ Color.black) {startP endP : Pos}
    (hs : startP.1 < n ∧ startP.2 < n) (he : endP.1 < n ∧ endP.2 < n)
    (hne : startP ≠ endP) (k : Nat) :
    C1Inv n tags0 startP endP (runSearch n tags0 startP endP k) :=
  (runFor_invariantL (updateNeighbors n tags0) tags0 startP endP
    (fun ls => C1Inv n tags0 startP endP ls ∧ SInv startP ls.state)
    ⟨Or.inl rfl, SInv_init tags0 startP endP⟩
    (fun ls hP => C1Inv_step hw hs he hne ls hP) k).1

/-- Claim C1: on every `n × n` grid containing no Wall cells, with
neighbors recomputed for every cell and distinct in-bounds start and end
cells, the search terminates with success and the reconstructed path
(the cells tagged Path, recorded in order on the path trace) has length
exactly the Manhattan distance between start and end. -/
theorem C1 (n : Nat) (tags0 : Pos → Color)
    (hw : ∀ p, tags0 p ≠ Color.black) (startP endP : Pos)
    (hs : startP.1 < n ∧ startP.2 < n) (he : endP.1 < n ∧ endP.2 < n)
    (hne : startP ≠ endP) :
    ∃ k st, runSearch n tags0 startP endP k = .done true st ∧
      st.pathTrace.length = heuristic startP endP := by
  obtain ⟨k, hk⟩ := run_terminates (updateNeighbors n tags0) (makeGrid n).join
    tags0 startP endP (updateNeighbors_closure n tags0)
    ((mem_gridJoin n startP).mpr hs)
  have hk' : (runSearch n tags0 startP endP k).isRunning = false := hk
  rcases C1Inv_run hw hs he hne k with h1 | ⟨s, heq, _⟩ | ⟨st, heq, hlen⟩
  · rw [h1] at hk'
    exact Bool.noConfusion hk'
  · rw [heq] at hk'
    exact Bool.noConfusion hk'
  · exact ⟨k, st, heq, hlen⟩

theorem C1_witness :
    (∀ p : Pos, (fun _ : Pos => Color.default) p ≠ Color.black) ∧
    (((0, 0) : Pos).1 < 2 ∧ ((0, 0) : Pos).2 < 2) ∧
    (((1, 1) : Pos).1 < 2 ∧ ((1, 1) : Pos).2 < 2) ∧
    ((0, 0) : Pos) ≠ ((1, 1) : Pos) ∧
    (∃ k st, runSearch 2 (fun _ : Pos => Color.default) (0, 0) (1, 1) k =
      .done true st ∧ st.pathTrace.length = heuristic (0, 0) (1, 1)) :=
  ⟨fun _ h => Color.noConfusion h, ⟨by decide, by decide⟩,
   ⟨by decide, by decide⟩, by decide,
   C1 2 (fun _ : Pos => Color.default) (fun _ h => Color.noConfusion h)
     (0, 0) (1, 1) ⟨by decide, by decide⟩ ⟨by decide, by decide⟩ (by decide)⟩
